import Mathlib

set_option maxHeartbeats 1000000

/-! Verification of the fork-topology builder, canonical-chain resolver, fee
aggregator and miner-power aggregator of the hub service (tasks.go), via a
shallow embedding.  Go maps are modelled as association lists whose lookup
reads the first matching binding (a Go map has unique keys, and all maps here
are built by overwrite-in-place insertion, so keys stay unique); pointer
mutation of commits shared between `AllCommits` and `CommitsByBlock` is
modelled as keyed in-place update of the single `AllCommits` binding, with
`CommitsByBlock` holding txids instead of pointers; SQL row sources and the
snapshot / payments / tenure-fee oracles are explicit lists and functions. -/

/-- Association-list lookup: the value bound to `k`, first binding wins. -/
def alookup {K V : Type} [DecidableEq K] (k : K) : List (K × V) → Option V
  | [] => none
  | e :: l => if e.1 = k then some e.2 else alookup k l

/-- Association-list insert with overwrite-in-place semantics (Go `m[k] = v`). -/
def ainsert {K V : Type} [DecidableEq K] (k : K) (v : V) : List (K × V) → List (K × V)
  | [] => [(k, v)]
  | e :: l => if e.1 = k then (k, v) :: l else e :: ainsert k v l

/-- In-place update of the binding for `k`, if present (Go mutation through a
map-held pointer: `m[k].field = x`). -/
def amodify {K V : Type} [DecidableEq K] (k : K) (f : V → V) : List (K × V) → List (K × V)
  | [] => []
  | e :: l => if e.1 = k then (e.1, f e.2) :: l else e :: amodify k f l

/-- Go `m[k] += x` on a map with zero-valued default reads. -/
def abump {K V : Type} [DecidableEq K] [Add V] [Zero V] (k : K) (x : V)
    (m : List (K × V)) : List (K × V) :=
  ainsert k ((alookup k m).getD 0 + x) m

/-- Go `m[k] = append(m[k], t)` on a map of slices. -/
def appendAt {K V : Type} [DecidableEq K] (k : K) (v : V)
    (m : List (K × List V)) : List (K × List V) :=
  ainsert k ((alookup k m).getD [] ++ [v]) m

/-- Index of the first binding for `k`. -/
def idxOf {K V : Type} [DecidableEq K] (k : K) : List (K × V) → Option Nat
  | [] => none
  | e :: l => if e.1 = k then some 0 else (idxOf k l).map (· + 1)

/-- (block height, vtxindex) pair used to address a parent commit by position
(`hashkey` in tasks.go). -/
structure hashkey where
  blockHeight : Int
  vtxindex : Int
deriving DecidableEq, Repr

/-- A block-commit row with its derived fields (`BlockCommit` in tasks.go).
Zero values of unfilled Go fields are `0`, `""`, `false`. -/
structure BlockCommit where
  burnHeaderHash : String
  txid : String
  vtxindex : Int
  sender : String
  burnBlockHeight : Int
  spend : Int
  sortitionId : String
  parentBlockPtr : Int
  parentVtxindex : Int
  memo : String
  parent : String
  stacksHeight : Int
  blockHash : String
  won : Bool
  canonical : Bool
  tip : Bool
  coinbaseEarned : Int
  feesEarned : Int
  potentialTip : Bool
  nextTip : Bool
  key : hashkey
  parentKey : hashkey
deriving DecidableEq, Repr

/-- One row yielded by the bid row source (the `block_commits` range query in
`fetchCommitData`), in scan order. -/
structure CommitRow where
  burnHeaderHash : String
  txid : String
  sender : String
  sortitionId : String
  vtxindex : Int
  burnBlockHeight : Int
  spend : Int
  parentBlockPtr : Int
  parentVtxindex : Int
  memo : String
deriving DecidableEq, Repr

/-- State of the row scan of `fetchCommitData`: the `allCommits` map (txid to
commit) and the positional index `hashMap` (hashkey to txid). -/
structure ScanState where
  allCommits : List (String × BlockCommit)
  hashMap : List (hashkey × String)
deriving DecidableEq, Repr

/-- The commit built for one scanned row: db columns copied, derived flags and
enrichment fields at their Go zero values, positional keys assembled, and the
declared parent resolved against the positional index `hm` built so far
(unresolved: left `""`, a window-boundary root). -/
def commitOfRow (hm : List (hashkey × String)) (r : CommitRow) : BlockCommit :=
  { burnHeaderHash := r.burnHeaderHash, txid := r.txid, vtxindex := r.vtxindex
    sender := r.sender, burnBlockHeight := r.burnBlockHeight, spend := r.spend
    sortitionId := r.sortitionId, parentBlockPtr := r.parentBlockPtr
    parentVtxindex := r.parentVtxindex, memo := r.memo
    parent := (alookup ⟨r.parentBlockPtr, r.parentVtxindex⟩ hm).getD ""
    stacksHeight := 0, blockHash := "", won := false, canonical := false
    tip := false, coinbaseEarned := 0, feesEarned := 0, potentialTip := false
    nextTip := false, key := ⟨r.burnBlockHeight, r.vtxindex⟩
    parentKey := ⟨r.parentBlockPtr, r.parentVtxindex⟩ }

/-- Processing of one scanned row in `fetchCommitData`: build the commit with
its parent resolved (the index entry for the commit's own key is registered
only after the lookup), then register commit and key.  In the source the
commit is inserted into `allCommits` before its `parent` field is assigned
through the shared pointer; with value semantics the stored commit carries the
resolved parent either way. -/
def stepRow (s : ScanState) (r : CommitRow) : ScanState :=
  { allCommits := ainsert r.txid (commitOfRow s.hashMap r) s.allCommits
    hashMap := ainsert ⟨r.burnBlockHeight, r.vtxindex⟩ r.txid s.hashMap }

/-- The row scan of `fetchCommitData` over an error-free row sequence. -/
def scanRowsP : List CommitRow → ScanState → ScanState
  | [], s => s
  | r :: rs, s => scanRowsP rs (stepRow s r)

/-- Result of `fetchCommitData` (`BlockCommits` in tasks.go).  `CommitsByBlock`
holds, per height, the txids of the commits at that height (the source holds
pointers into `AllCommits`). -/
structure BlockCommits where
  SortitionFeesMap : List (String × Int)
  AllCommits : List (String × BlockCommit)
  CommitsByBlock : List (Int × List String)
deriving DecidableEq, Repr

/-- One iteration of the grouping loop of `fetchCommitData`: append the commit
to its height's bucket and add its spend to its sortition id's fee sum. -/
def gstep (acc : List (Int × List String) × List (String × Int))
    (e : String × BlockCommit) :
    List (Int × List String) × List (String × Int) :=
  (appendAt e.2.burnBlockHeight e.1 acc.1, abump e.2.sortitionId e.2.spend acc.2)

/-- The grouping loop at the end of `fetchCommitData`: group commits by block
height and sum spend per sortition id.  The source iterates the `allCommits`
map in Go's unspecified map order; we iterate the association list in its
insertion order (all facts proved below are independent of this order). -/
def groupAndSum (a : List (String × BlockCommit)) : BlockCommits :=
  let grouped := a.foldl gstep ([], [])
  { SortitionFeesMap := grouped.2, AllCommits := a, CommitsByBlock := grouped.1 }

/-- `fetchCommitData` specialised to an error-free row source. -/
def fetchCommitDataRows (rows : List CommitRow) : BlockCommits :=
  groupAndSum (scanRowsP rows ⟨[], []⟩).allCommits

/-- A bid row source together with its failure modes: failure of the range
query itself, a scan error on any row, and the post-scan `rows.Err()` check. -/
structure RowSource where
  queryErr : Bool
  rows : List (Except Unit CommitRow)
  postErr : Bool
deriving Repr

/-- Observable outcome of `fetchCommitData`: either the invocation hits
`log.Fatal` (terminating the host process) or it returns a `BlockCommits`. -/
inductive FetchOutcome where
  | fatal : FetchOutcome
  | ok : BlockCommits → FetchOutcome
deriving DecidableEq, Repr

/-- The row scan with scan errors: `log.Fatal` (modelled as `none`) on the
first erroneous row. -/
def scanRowsE : List (Except Unit CommitRow) → ScanState → Option ScanState
  | [], s => some s
  | Except.error _ :: _, _ => none
  | Except.ok r :: rs, s => scanRowsE rs (stepRow s r)

/-- `fetchCommitData` with all three read-failure modes: a failed range query
is fatal, a failed row scan is fatal, and a post-scan row error (checked via
`!rows.NextResultSet() && rows.Err() != nil`) is fatal. -/
def fetchCommitData (src : RowSource) : FetchOutcome :=
  if src.queryErr then FetchOutcome.fatal
  else
    match scanRowsE src.rows ⟨[], []⟩ with
    | none => FetchOutcome.fatal
    | some s => if src.postErr then FetchOutcome.fatal else FetchOutcome.ok (groupAndSum s.allCommits)

theorem scanRowsE_ok (rows : List CommitRow) :
    ∀ s : ScanState, scanRowsE (rows.map Except.ok) s = some (scanRowsP rows s) := by
  induction rows with
  | nil => intro s; rfl
  | cons r rs ih => intro s; simpa [scanRowsE, scanRowsP] using ih (stepRow s r)

/-- On an error-free source, `fetchCommitData` returns the pure result. -/
theorem fetchCommitData_pure (rows : List CommitRow) :
    fetchCommitData ⟨false, rows.map Except.ok, false⟩ =
      FetchOutcome.ok (fetchCommitDataRows rows) := by
  simp [fetchCommitData, scanRowsE_ok, fetchCommitDataRows]

/-! Basic association-list lemmas. -/

theorem alookup_ainsert {K V : Type} [DecidableEq K] (k k2 : K) (v : V) :
    ∀ l : List (K × V),
      alookup k (ainsert k2 v l) = if k2 = k then some v else alookup k l := by
  intro l
  induction l with
  | nil => simp [ainsert, alookup]
  | cons e l ih =>
    by_cases h1 : e.1 = k2
    · by_cases h2 : k2 = k
      · simp [ainsert, alookup, h1, h2]
      · have h3 : ¬ e.1 = k := fun hh => h2 (h1.symm.trans hh)
        simp [ainsert, alookup, h1, h2, h3]
    · by_cases h2 : e.1 = k
      · have h4 : ¬ k2 = k := fun hh => h1 (h2.trans hh.symm)
        have h6 : ¬ k = k2 := fun hh => h4 hh.symm
        simp [ainsert, alookup, h1, h2, h4, h6]
      · simp [ainsert, alookup, h1, h2, ih]

theorem ainsert_append_of_not_mem {K V : Type} [DecidableEq K] (k : K) (v : V) :
    ∀ l : List (K × V), k ∉ l.map Prod.fst → ainsert k v l = l ++ [(k, v)] := by
  intro l
  induction l with
  | nil => simp [ainsert]
  | cons e l ih =>
    intro h
    simp only [List.map_cons, List.mem_cons] at h
    push_neg at h
    have : ¬ e.1 = k := fun hh => h.1 hh.symm
    simp [ainsert, this, ih h.2]

theorem alookup_abump {K : Type} [DecidableEq K] (k k2 : K) (x : Int)
    (m : List (K × Int)) :
    alookup k (abump k2 x m) =
      if k2 = k then some ((alookup k m).getD 0 + x) else alookup k m := by
  by_cases h : k2 = k <;> simp [abump, alookup_ainsert, h]

theorem alookup_amodify {K V : Type} [DecidableEq K] (k k2 : K) (f : V → V) :
    ∀ l : List (K × V),
      alookup k (amodify k2 f l) =
        if k2 = k then (alookup k l).map f else alookup k l := by
  intro l
  induction l with
  | nil => simp [amodify, alookup]
  | cons e l ih =>
    by_cases h1 : e.1 = k2
    · by_cases h2 : k2 = k
      · have h5 : e.1 = k := h1.trans h2
        simp [amodify, alookup, h1, h2, h5]
      · have h3 : ¬ e.1 = k := fun hh => h2 (h1.symm.trans hh)
        simp [amodify, alookup, h1, h2, h3]
    · by_cases h2 : e.1 = k
      · have h4 : ¬ k2 = k := fun hh => h1 (h2.trans hh.symm)
        have h6 : ¬ k = k2 := fun hh => h4 hh.symm
        simp [amodify, alookup, h1, h2, h4, h6]
      · simp [amodify, alookup, h1, h2, ih]

theorem amodify_length {K V : Type} [DecidableEq K] (k : K) (f : V → V) :
    ∀ l : List (K × V), (amodify k f l).length = l.length := by
  intro l
  induction l with
  | nil => rfl
  | cons e l ih => by_cases h : e.1 = k <;> simp [amodify, h, ih]

theorem amodify_map_fst {K V : Type} [DecidableEq K] (k : K) (f : V → V) :
    ∀ l : List (K × V), (amodify k f l).map Prod.fst = l.map Prod.fst := by
  intro l
  induction l with
  | nil => rfl
  | cons e l ih => by_cases h : e.1 = k <;> simp [amodify, h, ih]

theorem alookup_isSome_of_mem_fst {K V : Type} [DecidableEq K] (k : K) :
    ∀ l : List (K × V), k ∈ l.map Prod.fst → (alookup k l).isSome = true := by
  intro l
  induction l with
  | nil => simp
  | cons e l ih =>
    intro h
    by_cases he : e.1 = k
    · simp [alookup, he]
    · simp only [List.map_cons, List.mem_cons] at h
      rcases h with h | h
      · exact absurd h.symm he
      · simp [alookup, he, ih h]

theorem mem_fst_of_alookup_isSome {K V : Type} [DecidableEq K] (k : K) :
    ∀ l : List (K × V), (alookup k l).isSome = true → k ∈ l.map Prod.fst := by
  intro l
  induction l with
  | nil => simp [alookup]
  | cons e l ih =>
    intro h
    by_cases he : e.1 = k
    · simp [he.symm]
    · simp only [alookup, he, if_false] at h
      simp [ih h]

/-! ### C1 — loader behaviour on read failures -/

theorem scanRowsE_error :
    ∀ (rows : List (Except Unit CommitRow)) (s : ScanState),
      (∃ u, Except.error u ∈ rows) → scanRowsE rows s = none := by
  intro rows
  induction rows with
  | nil => intro s h; rcases h with ⟨u, h⟩; cases h
  | cons e rs ih =>
    intro s h
    rcases h with ⟨u, h⟩
    cases e with
    | error v => rfl
    | ok r =>
      have : Except.error u ∈ rs := by
        rcases List.mem_cons.mp h with h1 | h1
        · cases h1
        · exact h1
      simpa [scanRowsE] using ih (stepRow s r) ⟨u, this⟩

/-- C1, counterexample: on a source whose single row fails to scan, the loader
does not return an empty `BlockCommits`; the invocation is fatal to the host
process (`log.Fatal`). -/
theorem C1_counterexample :
    fetchCommitData ⟨false, [Except.error ()], false⟩ = FetchOutcome.fatal ∧
      fetchCommitData ⟨false, [Except.error ()], false⟩ ≠
        FetchOutcome.ok ⟨[], [], []⟩ := by
  exact ⟨rfl, by decide⟩

/-- C1, amended: on every invocation of the bid-graph loader in which a
row-source read fails (the range query itself, scanning any row, or the
post-scan row error check), the loader terminates the host process via
`log.Fatal`; it never returns, so no partial (and no empty) `BlockCommits` is
published by that invocation. -/
theorem C1_read_failure_is_fatal (src : RowSource)
    (h : src.queryErr = true ∨ (∃ u, Except.error u ∈ src.rows) ∨
      src.postErr = true) :
    fetchCommitData src = FetchOutcome.fatal := by
  unfold fetchCommitData
  rcases h with h | h | h
  · simp [h]
  · simp [scanRowsE_error src.rows _ h]
  · by_cases hq : src.queryErr = true
    · simp [hq]
    · cases hs : scanRowsE src.rows ⟨[], []⟩ <;> simp [hq, hs, h]

/-- Witness for C1's amended theorem at a concrete failing source. -/
theorem C1_read_failure_is_fatal_witness :
    ((⟨true, [], false⟩ : RowSource).queryErr = true ∨
      (∃ u, Except.error u ∈ (⟨true, [], false⟩ : RowSource).rows) ∨
      (⟨true, [], false⟩ : RowSource).postErr = true) ∧
      fetchCommitData ⟨true, [], false⟩ = FetchOutcome.fatal :=
  ⟨Or.inl rfl, C1_read_failure_is_fatal ⟨true, [], false⟩ (Or.inl rfl)⟩

/-! ### C8 — per-sortition fee sums -/

/-- Sum of the second components of a pair list at first component `sid`. -/
def pairSum (sid : String) (l : List (String × Int)) : Int :=
  (l.map (fun p => if p.1 = sid then p.2 else 0)).sum

theorem groupFold_fees (sid : String) :
    ∀ (a : List (String × BlockCommit))
      (acc : List (Int × List String) × List (String × Int)),
      (alookup sid (a.foldl gstep acc).2).getD 0 =
        (alookup sid acc.2).getD 0 +
          pairSum sid (a.map (fun e => (e.2.sortitionId, e.2.spend))) := by
  intro a
  induction a with
  | nil => intro acc; simp [pairSum]
  | cons e a ih =>
    intro acc
    have hfold : ((e :: a).foldl gstep acc) = a.foldl gstep (gstep acc e) := rfl
    rw [hfold, ih]
    by_cases h : e.2.sortitionId = sid
    · simp only [gstep, alookup_abump, h, if_pos, Option.getD_some, pairSum,
        List.map_cons, List.sum_cons, if_true]
      ring
    · simp [gstep, alookup_abump, h, pairSum]

theorem scanRowsP_map_proj {β : Type} (proj : String × BlockCommit → β)
    (rproj : CommitRow → β)
    (hcompat : ∀ (hm : List (hashkey × String)) (r : CommitRow),
      proj (r.txid, commitOfRow hm r) = rproj r) :
    ∀ (rows : List CommitRow) (s : ScanState),
      (rows.map CommitRow.txid).Nodup →
      (∀ r ∈ rows, r.txid ∉ s.allCommits.map Prod.fst) →
      (scanRowsP rows s).allCommits.map proj =
        s.allCommits.map proj ++ rows.map rproj := by
  intro rows
  induction rows with
  | nil => intro s _ _; simp [scanRowsP]
  | cons r rs ih =>
    intro s hnd hf
    have hfresh : r.txid ∉ s.allCommits.map Prod.fst := hf r (List.mem_cons_self r rs)
    have hins : ainsert r.txid (commitOfRow s.hashMap r) s.allCommits
        = s.allCommits ++ [(r.txid, commitOfRow s.hashMap r)] :=
      ainsert_append_of_not_mem _ _ _ hfresh
    simp only [List.map_cons] at hnd
    have hnd1 := (List.nodup_cons.mp hnd).1
    have hnd2 := (List.nodup_cons.mp hnd).2
    have hkey : (stepRow s r).allCommits.map proj
        = s.allCommits.map proj ++ [rproj r] := by
      simp [stepRow, hins, hcompat]
    have hf2 : ∀ r2 ∈ rs, r2.txid ∉ (stepRow s r).allCommits.map Prod.fst := by
      intro r2 hr2
      have hfst : (stepRow s r).allCommits.map Prod.fst
          = s.allCommits.map Prod.fst ++ [r.txid] := by
        simp [stepRow, hins]
      rw [hfst]
      simp only [List.mem_append, List.mem_singleton]
      push_neg
      refine ⟨hf r2 (List.mem_cons_of_mem _ hr2), ?_⟩
      intro hh
      have hmem : r2.txid ∈ rs.map CommitRow.txid := List.mem_map_of_mem _ hr2
      rw [hh] at hmem
      exact hnd1 hmem
    calc (scanRowsP (r :: rs) s).allCommits.map proj
        = (scanRowsP rs (stepRow s r)).allCommits.map proj := rfl
      _ = (stepRow s r).allCommits.map proj ++ rs.map rproj := ih _ hnd2 hf2
      _ = (s.allCommits.map proj ++ [rproj r]) ++ rs.map rproj := by rw [hkey]
      _ = s.allCommits.map proj ++ (r :: rs).map rproj := by simp

/-- C8: for every row input with pairwise-distinct bid ids (the data model's
uniqueness of ids), the fee aggregate recorded for each sortition-grouping id
equals the sum of the spend of all bids in the graph sharing that id, and
equals the same sum independently recomputed from the raw input rows. -/
theorem C8_sortition_fee_sums (rows : List CommitRow)
    (hnd : (rows.map CommitRow.txid).Nodup) (sid : String) :
    (alookup sid (fetchCommitDataRows rows).SortitionFeesMap).getD 0 =
        pairSum sid ((fetchCommitDataRows rows).AllCommits.map
          (fun e => (e.2.sortitionId, e.2.spend))) ∧
      (alookup sid (fetchCommitDataRows rows).SortitionFeesMap).getD 0 =
        pairSum sid (rows.map (fun r => (r.sortitionId, r.spend))) := by
  have h1 : (alookup sid (fetchCommitDataRows rows).SortitionFeesMap).getD 0 =
      pairSum sid ((fetchCommitDataRows rows).AllCommits.map
        (fun e => (e.2.sortitionId, e.2.spend))) := by
    simp only [fetchCommitDataRows, groupAndSum]
    rw [groupFold_fees]
    simp [alookup]
  have h2 : ((fetchCommitDataRows rows).AllCommits.map
      (fun e => (e.2.sortitionId, e.2.spend)))
      = rows.map (fun r => (r.sortitionId, r.spend)) := by
    have hh := scanRowsP_map_proj (fun e => (e.2.sortitionId, e.2.spend))
      (fun r => (r.sortitionId, r.spend)) (fun hm r => rfl) rows ⟨[], []⟩ hnd
      (by intro r _; simp)
    simpa [fetchCommitDataRows, groupAndSum] using hh
  exact ⟨h1, h2 ▸ h1⟩

/-- Concrete two-bid window used to witness C8. -/
def wrowsC8 : List CommitRow :=
  [{ burnHeaderHash := "bh1", txid := "t1", sender := "m1", sortitionId := "s"
     vtxindex := 0, burnBlockHeight := 1, spend := 5, parentBlockPtr := 0
     parentVtxindex := 0, memo := "" },
   { burnHeaderHash := "bh1", txid := "t2", sender := "m2", sortitionId := "s"
     vtxindex := 1, burnBlockHeight := 1, spend := 7, parentBlockPtr := 0
     parentVtxindex := 0, memo := "" }]

/-- Witness for C8 at a concrete two-bid window sharing one sortition id. -/
theorem C8_sortition_fee_sums_witness :
    (wrowsC8.map CommitRow.txid).Nodup ∧
      ((alookup "s" (fetchCommitDataRows wrowsC8).SortitionFeesMap).getD 0 =
          pairSum "s" ((fetchCommitDataRows wrowsC8).AllCommits.map
            (fun e => (e.2.sortitionId, e.2.spend))) ∧
        (alookup "s" (fetchCommitDataRows wrowsC8).SortitionFeesMap).getD 0 =
          pairSum "s" (wrowsC8.map (fun r => (r.sortitionId, r.spend)))) :=
  ⟨by decide, C8_sortition_fee_sums wrowsC8 (by decide) "s"⟩

/-! ### Canonical pass (`processCanonicalTip`) -/

theorem amodify_comp {K V : Type} [DecidableEq K] (k : K) (f h : V → V) :
    ∀ l : List (K × V),
      amodify k f (amodify k h l) = amodify k (fun v => f (h v)) l := by
  intro l
  induction l with
  | nil => rfl
  | cons e l ih =>
    by_cases he : e.1 = k
    · simp [amodify, he]
    · simp [amodify, he, ih]

theorem amodify_congr {K V : Type} [DecidableEq K] (k : K) (f h : V → V)
    (hfh : ∀ v, f v = h v) : ∀ l : List (K × V), amodify k f l = amodify k h l := by
  intro l
  induction l with
  | nil => rfl
  | cons e l ih =>
    by_cases he : e.1 = k
    · simp [amodify, he, hfh]
    · simp [amodify, he, ih]

theorem amodify_comm {K V : Type} [DecidableEq K] (k1 k2 : K) (hk : ¬ k1 = k2)
    (f h : V → V) : ∀ l : List (K × V),
      amodify k1 f (amodify k2 h l) = amodify k2 h (amodify k1 f l) := by
  intro l
  induction l with
  | nil => rfl
  | cons e l ih =>
    have hk2 : ¬ k2 = k1 := fun hh => hk hh.symm
    by_cases h1 : e.1 = k1
    · have h2 : ¬ e.1 = k2 := fun hh => hk (h1.symm.trans hh)
      simp [amodify, h1, h2, hk, hk2]
    · by_cases h2 : e.1 = k2
      · simp [amodify, h1, h2, hk, hk2]
      · simp [amodify, h1, h2, ih]

/-- Flag update applied to the commit visited at id `t` by the canonical walk:
`tip` is set when the visited id is the declared head, `canonical` always. -/
def markFn (ct t : String) (c : BlockCommit) : BlockCommit :=
  { c with tip := if t = ct then true else c.tip, canonical := true }

/-- One visit of the canonical backward walk. -/
def markStep (ct t : String) (g : List (String × BlockCommit)) :
    List (String × BlockCommit) :=
  amodify t (markFn ct t) g

/-- The backward walk of `processCanonicalTip`, fuel-bounded: look the current
id up, stop on a miss, otherwise mark the commit and continue at its resolved
parent id. -/
def canonicalWalk (ct : String) : Nat → String → List (String × BlockCommit) →
    List (String × BlockCommit)
  | 0, _, g => g
  | fuel + 1, t, g =>
    match alookup t g with
    | none => g
    | some c => canonicalWalk ct fuel c.parent (markStep ct t g)

/-- `processCanonicalTip`: walk backward from the declared chain-head id
(`winning_block_txid` at the top-of-window height, passed in as `head`),
marking `canonical` on every visited commit and `tip` on the head commit,
stopping at the first lookup miss.  The fuel `commits.length + 1` is never
exhausted on graphs with well-founded parent links, which the loader
guarantees (C10), so on those graphs this equals the source's unbounded
loop. -/
def processCanonicalTip (head : String) (commits : List (String × BlockCommit)) :
    List (String × BlockCommit) :=
  canonicalWalk head (commits.length + 1) head commits

/-- Visit order of the canonical walk, computed against the fixed graph: the
walk's flag updates change no key and no parent field, so its traversal is a
function of the initial graph. -/
def walkPath : Nat → String → List (String × BlockCommit) → List String
  | 0, _, _ => []
  | fuel + 1, t, g =>
    match alookup t g with
    | none => []
    | some c => t :: walkPath fuel c.parent g

/-- Application of the walk's flag updates along a list of visited ids. -/
def markList (ct : String) : List String → List (String × BlockCommit) →
    List (String × BlockCommit)
  | [], g => g
  | t :: p, g => markList ct p (markStep ct t g)

theorem markFn_parent (ct t : String) (c : BlockCommit) :
    (markFn ct t c).parent = c.parent := rfl

theorem alookup_markStep (ct t k : String) (g : List (String × BlockCommit)) :
    alookup k (markStep ct t g) =
      if t = k then (alookup k g).map (markFn ct t) else alookup k g :=
  alookup_amodify k t (markFn ct t) g

theorem walkPath_markStep (ct t : String) :
    ∀ (n : Nat) (u : String) (g : List (String × BlockCommit)),
      walkPath n u (markStep ct t g) = walkPath n u g := by
  intro n
  induction n with
  | zero => intro u g; rfl
  | succ n ih =>
    intro u g
    by_cases htu : t = u
    · subst htu
      cases hc : alookup t g with
      | none => simp [walkPath, alookup_markStep, hc]
      | some c =>
        simp [walkPath, alookup_markStep, hc, markFn_parent, ih]
    · cases hc : alookup u g with
      | none => simp [walkPath, alookup_markStep, htu, hc]
      | some c => simp [walkPath, alookup_markStep, htu, hc, ih]

theorem walk_eq_markList (ct : String) :
    ∀ (fuel : Nat) (t : String) (g : List (String × BlockCommit)),
      canonicalWalk ct fuel t g = markList ct (walkPath fuel t g) g := by
  intro fuel
  induction fuel with
  | zero => intro t g; rfl
  | succ fuel ih =>
    intro t g
    cases hc : alookup t g with
    | none => simp [canonicalWalk, walkPath, hc, markList]
    | some c =>
      simp only [canonicalWalk, walkPath, hc]
      rw [ih, walkPath_markStep]
      rfl

theorem markStep_idem (ct t : String) (g : List (String × BlockCommit)) :
    markStep ct t (markStep ct t g) = markStep ct t g := by
  unfold markStep
  rw [amodify_comp]
  exact amodify_congr _ _ _ (fun v => by simp [markFn]) g

theorem markStep_comm (ct t u : String) (g : List (String × BlockCommit)) :
    markStep ct t (markStep ct u g) = markStep ct u (markStep ct t g) := by
  by_cases htu : t = u
  · rw [htu]
  · exact amodify_comm t u htu _ _ g

theorem markList_markStep_comm (ct t : String) :
    ∀ (p : List String) (g : List (String × BlockCommit)),
      markStep ct t (markList ct p g) = markList ct p (markStep ct t g) := by
  intro p
  induction p with
  | nil => intro g; rfl
  | cons u p ih =>
    intro g
    show markStep ct t (markList ct p (markStep ct u g)) = _
    rw [ih, markStep_comm]
    rfl

theorem markList_idem (ct : String) :
    ∀ (p : List String) (g : List (String × BlockCommit)),
      markList ct p (markList ct p g) = markList ct p g := by
  intro p
  induction p with
  | nil => intro g; rfl
  | cons t p ih =>
    intro g
    show markList ct p (markStep ct t (markList ct p (markStep ct t g))) =
      markList ct p (markStep ct t g)
    rw [markList_markStep_comm, markStep_idem, ih]

theorem markList_length (ct : String) :
    ∀ (p : List String) (g : List (String × BlockCommit)),
      (markList ct p g).length = g.length := by
  intro p
  induction p with
  | nil => intro g; rfl
  | cons t p ih =>
    intro g
    show (markList ct p (markStep ct t g)).length = _
    rw [ih]
    exact amodify_length t _ g

theorem walkPath_markList (ct : String) :
    ∀ (p : List String) (n : Nat) (u : String) (g : List (String × BlockCommit)),
      walkPath n u (markList ct p g) = walkPath n u g := by
  intro p
  induction p with
  | nil => intro n u g; rfl
  | cons t p ih =>
    intro n u g
    show walkPath n u (markList ct p (markStep ct t g)) = _
    rw [ih, walkPath_markStep]

/-- C9: the canonical pass is idempotent — running `processCanonicalTip` twice
from the same declared chain head produces exactly the graph produced by
running it once (in particular the same canonical/tip flag assignment on every
bid). -/
theorem C9_canonical_pass_idempotent (head : String)
    (g : List (String × BlockCommit)) :
    processCanonicalTip head (processCanonicalTip head g) =
      processCanonicalTip head g := by
  unfold processCanonicalTip
  have hlen : (canonicalWalk head (g.length + 1) head g).length = g.length := by
    rw [walk_eq_markList]
    exact markList_length head _ g
  rw [hlen, walk_eq_markList, walk_eq_markList, walkPath_markList,
    markList_idem]

/-! ### C4 — characterisation of the canonical pass -/

theorem idxOf_lt_length {K V : Type} [DecidableEq K] (k : K) :
    ∀ (l : List (K × V)) (i : Nat), idxOf k l = some i → i < l.length := by
  intro l
  induction l with
  | nil => intro i h; cases h
  | cons e l ih =>
    intro i h
    simp only [idxOf] at h
    split_ifs at h with he
    · cases h
      simp
    · rcases Option.map_eq_some'.mp h with ⟨i0, hi0, hii⟩
      subst hii
      simpa using Nat.succ_lt_succ (ih i0 hi0)

theorem idxOf_get {K V : Type} [DecidableEq K] (k : K) :
    ∀ (l : List (K × V)) (i : Nat), idxOf k l = some i →
      ∀ hi : i < l.length, (l.get ⟨i, hi⟩).1 = k := by
  intro l
  induction l with
  | nil => intro i h; cases h
  | cons e l ih =>
    intro i h hi
    simp only [idxOf] at h
    split_ifs at h with he
    · cases h
      simpa using he
    · rcases Option.map_eq_some'.mp h with ⟨i0, hi0, hii⟩
      subst hii
      simpa using ih i0 hi0 (by simpa using Nat.lt_of_succ_lt_succ (by simpa using hi))

theorem alookup_idx {K V : Type} [DecidableEq K] (k : K) :
    ∀ (l : List (K × V)) (v : V), alookup k l = some v →
      ∃ i, ∃ hi : i < l.length, idxOf k l = some i ∧ l.get ⟨i, hi⟩ = (k, v) := by
  intro l
  induction l with
  | nil => intro v h; cases h
  | cons e l ih =>
    intro v h
    obtain ⟨e1, e2⟩ := e
    by_cases he : e1 = k
    · simp only [alookup, he, if_pos] at h
      cases h
      subst he
      exact ⟨0, by simp, by simp [idxOf], by simp⟩
    · simp only [alookup, he, if_neg] at h
      obtain ⟨i, hi, hidx, hget⟩ := ih v h
      refine ⟨i + 1, by simpa using Nat.succ_lt_succ hi, ?_, by simpa using hget⟩
      simp [idxOf, he, hidx]

/-- Well-founded parent linkage: every binding's resolved parent id occurs
strictly earlier in the graph than the binding itself.  The loader guarantees
this for every graph it builds (C10). -/
def ParentWF (g : List (String × BlockCommit)) : Prop :=
  ∀ i : Fin g.length, ∀ j : Fin g.length,
    (g.get j).1 = ((g.get i).2).parent → (j : Nat) < (i : Nat)

instance parentWFDecidable (g : List (String × BlockCommit)) :
    Decidable (ParentWF g) :=
  inferInstanceAs (Decidable (∀ i : Fin g.length, ∀ j : Fin g.length,
    (g.get j).1 = ((g.get i).2).parent → (j : Nat) < (i : Nat)))

theorem parentWF_lookup {g : List (String × BlockCommit)} (hwf : ParentWF g)
    {k : String} {c : BlockCommit} {i j : Nat}
    (hkc : alookup k g = some c) (hik : idxOf k g = some i)
    (hjp : idxOf c.parent g = some j) : j < i := by
  obtain ⟨i2, hi2, hidx2, hget2⟩ := alookup_idx k g c hkc
  have hii : i2 = i := by
    rw [hidx2] at hik
    exact Option.some.inj hik
  subst hii
  have hj := idxOf_lt_length c.parent g j hjp
  have hjfst := idxOf_get c.parent g j hjp hj
  refine hwf ⟨i2, hi2⟩ ⟨j, hj⟩ ?_
  have hp2 : ((g.get ⟨i2, hi2⟩).2).parent = c.parent := by rw [hget2]
  rw [hjfst, hp2]

/-- Iterated parent-following on the fixed graph `g`: `hops g n t` is the id
reached from `t` after `n` successful lookups, `none` if a lookup missed. -/
def hops (g : List (String × BlockCommit)) : Nat → String → Option String
  | 0, t => some t
  | n + 1, t =>
    match alookup t g with
    | none => none
    | some c => hops g n c.parent

/-- Boundedly-checked reachability of `k` from `head` along resolved parent
ids (decidable; equivalent to unbounded reachability on well-founded graphs,
see the C4 theorem). -/
def reachB (g : List (String × BlockCommit)) (head k : String) : Bool :=
  (List.range (g.length + 1)).any (fun n => hops g n head == some k)

theorem reachB_true_iff (g : List (String × BlockCommit)) (head k : String) :
    reachB g head k = true ↔ ∃ n, n < g.length + 1 ∧ hops g n head = some k := by
  simp [reachB, List.any_eq_true, List.mem_range]

theorem mem_walkPath_of_hops (g : List (String × BlockCommit))
    (hwf : ParentWF g) :
    ∀ (n : Nat) (t k : String), hops g n t = some k →
      (alookup k g).isSome = true →
      ∀ fuel : Nat, (∀ j, idxOf t g = some j → j < fuel) →
      k ∈ walkPath fuel t g := by
  intro n
  induction n with
  | zero =>
    intro t k hh hks fuel hadeq
    have htk : t = k := by simpa [hops] using hh
    subst htk
    obtain ⟨c, hc⟩ := Option.isSome_iff_exists.mp hks
    obtain ⟨i, hi, hidx, _⟩ := alookup_idx t g c hc
    have : i < fuel := hadeq i hidx
    cases fuel with
    | zero => omega
    | succ f => simp [walkPath, hc]
  | succ n ih =>
    intro t k hh hks fuel hadeq
    cases hcc : alookup t g with
    | none => simp [hops, hcc] at hh
    | some c =>
      simp only [hops, hcc] at hh
      obtain ⟨i, hi, hidx, _⟩ := alookup_idx t g c hcc
      have hif : i < fuel := hadeq i hidx
      cases fuel with
      | zero => omega
      | succ f =>
        simp only [walkPath, hcc]
        refine List.mem_cons_of_mem t (ih c.parent k hh hks f ?_)
        intro j hj
        have hji : j < i := parentWF_lookup hwf hcc hidx hj
        omega

theorem hops_of_mem_walkPath (g : List (String × BlockCommit)) :
    ∀ (fuel : Nat) (t k : String), k ∈ walkPath fuel t g →
      ∃ n, n < fuel ∧ hops g n t = some k ∧ (alookup k g).isSome = true := by
  intro fuel
  induction fuel with
  | zero => intro t k h; simp [walkPath] at h
  | succ fuel ih =>
    intro t k h
    cases hcc : alookup t g with
    | none => rw [walkPath, hcc] at h; cases h
    | some c =>
      rw [walkPath, hcc] at h
      rcases List.mem_cons.mp h with h1 | h1
      · subst h1
        exact ⟨0, Nat.succ_pos _, rfl, by simp [hcc]⟩
      · obtain ⟨n, hn, hh, hs⟩ := ih c.parent k h1
        exact ⟨n + 1, Nat.succ_lt_succ hn, by simp [hops, hcc, hh], hs⟩

theorem markFn_idem (ct t : String) (c : BlockCommit) :
    markFn ct t (markFn ct t c) = markFn ct t c := by
  by_cases h : t = ct <;> simp [markFn, h]

theorem alookup_markList (ct k : String) :
    ∀ (p : List String) (g : List (String × BlockCommit)),
      alookup k (markList ct p g) =
        if k ∈ p then (alookup k g).map (markFn ct k) else alookup k g := by
  intro p
  induction p with
  | nil => intro g; simp [markList]
  | cons t p ih =>
    intro g
    show alookup k (markList ct p (markStep ct t g)) = _
    rw [ih, alookup_markStep]
    by_cases htk : t = k
    · subst htk
      by_cases hkp : t ∈ p
      · simp only [if_pos hkp, if_pos rfl, if_pos (List.mem_cons_self t p)]
        cases alookup t g with
        | none => rfl
        | some c => simp [markFn_idem]
      · simp [hkp, List.mem_cons]
    · have hne : ¬ t = k := htk
      by_cases hkp : k ∈ p
      · have : k ∈ t :: p := List.mem_cons_of_mem t hkp
        simp [hkp, hne, this]
      · have : ¬ k ∈ t :: p := by
          intro hmem
          rcases List.mem_cons.mp hmem with h1 | h1
          · exact hne h1.symm
          · exact hkp h1
        simp [hkp, hne, this]

/-- C4: on a graph with well-founded parent links (as the loader guarantees),
the canonical pass sets `canonical` on exactly the bids reachable from the
declared chain-head id by following resolved parent ids (stopping at the
first lookup miss), sets `tip` only on the head bid itself, and leaves every
other field of every bid (in particular `won` and `potentialTip`) unchanged;
the bounded reachability check used in the statement coincides with unbounded
parent-following reachability. -/
theorem C4_canonical_pass (g : List (String × BlockCommit)) (head : String)
    (hwf : ParentWF g) :
    (∀ k c, alookup k g = some c →
        alookup k (processCanonicalTip head g) =
          some { c with canonical := c.canonical || reachB g head k,
                        tip := c.tip || decide (k = head) }) ∧
      (∀ k, (alookup k g).isSome = true →
        (reachB g head k = true ↔ ∃ n, hops g n head = some k)) := by
  have hAdeq : ∀ j, idxOf head g = some j → j < g.length + 1 :=
    fun j hj => Nat.lt_succ_of_lt (idxOf_lt_length head g j hj)
  have hP : processCanonicalTip head g =
      markList head (walkPath (g.length + 1) head g) g :=
    walk_eq_markList head _ head g
  constructor
  · intro k c hkc
    have hks : (alookup k g).isSome = true := by rw [hkc]; rfl
    rw [hP, alookup_markList]
    by_cases hkP : k ∈ walkPath (g.length + 1) head g
    · rw [if_pos hkP, hkc]
      have hreach : reachB g head k = true := by
        obtain ⟨n, hn, hh, _⟩ := hops_of_mem_walkPath g _ _ _ hkP
        exact (reachB_true_iff g head k).mpr ⟨n, hn, hh⟩
      simp only [Option.map_some']
      by_cases hkh : k = head
      · subst hkh
        cases c
        simp [markFn, hreach]
      · cases c
        simp [markFn, hreach, hkh]
    · rw [if_neg hkP, hkc]
      have hnr : ¬ reachB g head k = true := by
        intro hr
        obtain ⟨n, hn, hh⟩ := (reachB_true_iff g head k).mp hr
        exact hkP (mem_walkPath_of_hops g hwf n head k hh hks _ hAdeq)
      have hreach : reachB g head k = false := by
        cases hEq : reachB g head k
        · rfl
        · exact absurd hEq hnr
      have hkh : ¬ k = head := by
        intro hkh
        subst hkh
        exact hkP (mem_walkPath_of_hops g hwf 0 k k rfl hks _ hAdeq)
      cases c
      simp [hreach, hkh]
  · intro k hks
    constructor
    · intro hr
      obtain ⟨n, _, hh⟩ := (reachB_true_iff g head k).mp hr
      exact ⟨n, hh⟩
    · rintro ⟨n, hh⟩
      have hmem := mem_walkPath_of_hops g hwf n head k hh hks (g.length + 1) hAdeq
      obtain ⟨m, hm, hh2, _⟩ := hops_of_mem_walkPath g _ _ _ hmem
      exact (reachB_true_iff g head k).mpr ⟨m, hm, hh2⟩

/-- Concrete two-bid chain (b at height 2 is the child of a at height 1) used
to witness C4. -/
def wrowsC4 : List CommitRow :=
  [{ burnHeaderHash := "bh1", txid := "a", sender := "m1", sortitionId := "s1"
     vtxindex := 0, burnBlockHeight := 1, spend := 100, parentBlockPtr := 0
     parentVtxindex := 0, memo := "" },
   { burnHeaderHash := "bh2", txid := "b", sender := "m2", sortitionId := "s2"
     vtxindex := 0, burnBlockHeight := 2, spend := 200, parentBlockPtr := 1
     parentVtxindex := 0, memo := "" }]

/-- The bid graph the loader builds from `wrowsC4`. -/
def wgC4 : List (String × BlockCommit) := (fetchCommitDataRows wrowsC4).AllCommits

/-- The commit stored for id b in `wgC4`. -/
def wcC4b : BlockCommit :=
  commitOfRow [(⟨1, 0⟩, "a")]
    { burnHeaderHash := "bh2", txid := "b", sender := "m2", sortitionId := "s2"
      vtxindex := 0, burnBlockHeight := 2, spend := 200, parentBlockPtr := 1
      parentVtxindex := 0, memo := "" }

/-- Witness for C4 at a concrete two-bid chain with head id b. -/
theorem C4_canonical_pass_witness :
    ParentWF wgC4 ∧
      alookup "b" (processCanonicalTip "b" wgC4) =
        some { wcC4b with canonical := wcC4b.canonical || reachB wgC4 "b" "b",
                          tip := wcC4b.tip || decide ("b" = "b") } :=
  ⟨by decide, (C4_canonical_pass wgC4 "b" (by decide)).1 "b" wcC4b (by decide)⟩

/-! ### C10 — well-foundedness of loader output and walk termination -/

theorem get_append_lt {α : Type} (l : List α) (a : α) (i : Nat) (hi : i < l.length)
    (h : i < (l ++ [a]).length) : (l ++ [a]).get ⟨i, h⟩ = l.get ⟨i, hi⟩ := by
  rw [List.get_eq_getElem, List.get_eq_getElem]
  exact List.getElem_append_left hi

theorem get_append_last {α : Type} (l : List α) (a : α)
    (h : l.length < (l ++ [a]).length) : (l ++ [a]).get ⟨l.length, h⟩ = a := by
  rw [List.get_eq_getElem]
  exact List.getElem_concat_length l a _ rfl _

theorem alookup_append_some {K V : Type} [DecidableEq K] (k : K) (v : V) :
    ∀ (l1 l2 : List (K × V)), alookup k l1 = some v →
      alookup k (l1 ++ l2) = some v := by
  intro l1
  induction l1 with
  | nil => intro l2 h; cases h
  | cons e l ih =>
    intro l2 h
    by_cases he : e.1 = k
    · simp only [alookup, he, if_pos] at h
      simpa [alookup, he] using h
    · simp only [alookup, he, if_neg] at h
      simpa [alookup, he] using ih l2 h

theorem alookup_get_of_nodup {K V : Type} [DecidableEq K] :
    ∀ (l : List (K × V)), (l.map Prod.fst).Nodup → ∀ j : Fin l.length,
      alookup (l.get j).1 l = some (l.get j).2 := by
  intro l
  induction l with
  | nil => intro _ j; exact absurd j.isLt (by simp)
  | cons e l ih =>
    intro hnd j
    simp only [List.map_cons, List.nodup_cons] at hnd
    refine Fin.cases ?_ ?_ j
    · simp [alookup]
    · intro i
      have hmem : (l.get i).1 ∈ l.map Prod.fst :=
        List.mem_map_of_mem Prod.fst (List.get_mem l i.val i.isLt)
      have hne : ¬ e.1 = (l.get i).1 := fun hh => hnd.1 (hh ▸ hmem)
      show (if e.1 = (l.get i).1 then some e.2 else alookup (l.get i).1 l) =
        some (l.get i).2
      rw [if_neg hne]
      exact ih hnd.2 i

theorem nodup_fst_get_inj {K V : Type} (l : List (K × V))
    (hnd : (l.map Prod.fst).Nodup) (i j : Fin l.length)
    (h : (l.get i).1 = (l.get j).1) : (i : Nat) = (j : Nat) := by
  have hi : (i : Nat) < (l.map Prod.fst).length := by simpa using i.isLt
  have hj : (j : Nat) < (l.map Prod.fst).length := by simpa using j.isLt
  have h2 : (l.map Prod.fst).get ⟨i, hi⟩ = (l.map Prod.fst).get ⟨j, hj⟩ := by
    rw [List.get_eq_getElem, List.get_eq_getElem, List.getElem_map,
      List.getElem_map]
    simpa [List.get_eq_getElem] using h
  have h3 := (List.Nodup.get_inj_iff hnd).mp h2
  simpa using congrArg Fin.val h3

theorem hops_isSome_of_succ (g : List (String × BlockCommit)) (n : Nat)
    (t u : String) (h : hops g (n + 1) t = some u) :
    (alookup t g).isSome = true := by
  cases hc : alookup t g with
  | none => simp [hops, hc] at h
  | some c => rfl

theorem idxOf_of_alookup_isSome {K V : Type} [DecidableEq K] (k : K)
    (l : List (K × V)) (h : (alookup k l).isSome = true) :
    ∃ i, idxOf k l = some i := by
  obtain ⟨v, hv⟩ := Option.isSome_iff_exists.mp h
  obtain ⟨i, _, hidx, _⟩ := alookup_idx k l v hv
  exact ⟨i, hidx⟩

theorem idxOf_alookup {K V : Type} [DecidableEq K] (k : K) :
    ∀ (l : List (K × V)) (i : Nat), idxOf k l = some i →
      ∀ hi : i < l.length, alookup k l = some (l.get ⟨i, hi⟩).2 := by
  intro l
  induction l with
  | nil => intro i h; cases h
  | cons e l ih =>
    intro i h hi
    simp only [idxOf] at h
    split_ifs at h with he
    · cases h
      simp [alookup, he]
    · rcases Option.map_eq_some'.mp h with ⟨i0, hi0, hii⟩
      subst hii
      simpa [alookup, he] using ih i0 hi0 (by simpa using Nat.lt_of_succ_lt_succ (by simpa using hi))

theorem hops_idx_bound (g : List (String × BlockCommit)) (hwf : ParentWF g) :
    ∀ (n : Nat) (t : String) (i : Nat), idxOf t g = some i →
      ∀ (u : String) (j : Nat), hops g n t = some u → idxOf u g = some j →
        j + n ≤ i := by
  intro n
  induction n with
  | zero =>
    intro t i hti u j hh hj
    have htu : t = u := by simpa [hops] using hh
    subst htu
    rw [hti] at hj
    cases hj
    omega
  | succ n ih =>
    intro t i hti u j hh hj
    cases hc : alookup t g with
    | none => simp [hops, hc] at hh
    | some c =>
      simp only [hops, hc] at hh
      cases n with
      | zero =>
        have hcu : c.parent = u := by simpa [hops] using hh
        subst hcu
        have := parentWF_lookup hwf hc hti hj
        omega
      | succ m =>
        have hs : (alookup c.parent g).isSome = true :=
          hops_isSome_of_succ g m c.parent u hh
        obtain ⟨i2, hi2⟩ := idxOf_of_alookup_isSome c.parent g hs
        have hlt : i2 < i := parentWF_lookup hwf hc hti hi2
        have := ih c.parent i2 hi2 u j hh hj
        omega

theorem hops_no_cycle (g : List (String × BlockCommit)) (hwf : ParentWF g)
    (t : String) (n : Nat) (h : hops g (n + 1) t = some t) : False := by
  have hs : (alookup t g).isSome = true := hops_isSome_of_succ g n t t h
  obtain ⟨i, hi⟩ := idxOf_of_alookup_isSome t g hs
  have := hops_idx_bound g hwf (n + 1) t i hi t i h hi
  omega

theorem hops_none_of_idx (g : List (String × BlockCommit)) (hwf : ParentWF g) :
    ∀ (i : Nat) (t : String), idxOf t g = some i →
      ∃ n, n ≤ i + 2 ∧ hops g n t = none := by
  intro i
  induction i using Nat.strong_induction_on with
  | _ i ih =>
    intro t hti
    have hilt := idxOf_lt_length t g i hti
    obtain ⟨c, hlook⟩ : ∃ c, alookup t g = some c :=
      ⟨_, idxOf_alookup t g i hti hilt⟩
    cases hp : alookup c.parent g with
    | none =>
      refine ⟨2, by omega, ?_⟩
      simp [hops, hlook, hp]
    | some c2 =>
      have hs : (alookup c.parent g).isSome = true := by simp [hp]
      obtain ⟨i2, hi2⟩ := idxOf_of_alookup_isSome _ g hs
      have hlt : i2 < i := parentWF_lookup hwf hlook hti hi2
      obtain ⟨n, hn, hh⟩ := ih i2 hlt _ hi2
      refine ⟨n + 1, by omega, ?_⟩
      simp [hops, hlook, hh]

theorem walk_reaches_end (g : List (String × BlockCommit)) (hwf : ParentWF g)
    (t : String) : ∃ n, n ≤ g.length + 1 ∧ hops g n t = none := by
  cases hc : alookup t g with
  | none => exact ⟨1, by omega, by simp [hops, hc]⟩
  | some c =>
    have hs : (alookup t g).isSome = true := by simp [hc]
    obtain ⟨i, hi⟩ := idxOf_of_alookup_isSome t g hs
    obtain ⟨n, hn, hh⟩ := hops_none_of_idx g hwf i t hi
    have := idxOf_lt_length t g i hi
    exact ⟨n, by omega, hh⟩

theorem fin_lift_bound {α : Type} (l : List α) (a : α) (j : Nat)
    (hj : j < l.length) : j < (l ++ [a]).length := by
  simp
  omega

theorem fin_last_bound {α : Type} (l : List α) (a : α) :
    l.length < (l ++ [a]).length := by
  simp

theorem get_append_fin {α : Type} (l : List α) (a : α)
    (i : Fin (l ++ [a]).length) (hi : (i : Nat) < l.length) :
    (l ++ [a]).get i = l.get ⟨i, hi⟩ :=
  get_append_lt l a i.val hi i.isLt

theorem get_append_fin_last {α : Type} (l : List α) (a : α)
    (i : Fin (l ++ [a]).length) (hi : (i : Nat) = l.length) :
    (l ++ [a]).get i = a := by
  have h2 : l.length < (l ++ [a]).length := by simp
  have h3 : i = ⟨l.length, h2⟩ := Fin.ext hi
  rw [h3, get_append_last]

/-- Invariant of the row scan of `fetchCommitData`, relating the `allCommits`
map `A` and the positional index `M`: keys are distinct nonempty txids, each
stored commit's `txid` field is its key and its flags are at their zero
values, the index maps each registered positional key to an already-stored
commit with that key at that key's height, parent links point strictly
backwards in insertion order (`ParentWF`), every resolved parent binding has
matching positional key and no greater height, and a parent link is empty
exactly when no earlier-scanned commit registered the declared parent key. -/
structure ScanInv (A : List (String × BlockCommit))
    (M : List (hashkey × String)) : Prop where
  nodupKeys : (A.map Prod.fst).Nodup
  noEmptyKey : ¬ "" ∈ A.map Prod.fst
  keyTx : ∀ i : Fin A.length, ((A.get i).2).txid = (A.get i).1
  flagsFalse : ∀ i : Fin A.length,
    ((A.get i).2).potentialTip = false ∧ ((A.get i).2).won = false ∧
    ((A.get i).2).canonical = false ∧ ((A.get i).2).tip = false ∧
    ((A.get i).2).nextTip = false
  mreg : ∀ hk tx, alookup hk M = some tx →
    ∃ j : Fin A.length, (A.get j).1 = tx ∧ ((A.get j).2).key = hk ∧
      ((A.get j).2).burnBlockHeight = hk.blockHeight
  mkeys : ∀ hk : hashkey, (alookup hk M).isSome = true ↔
    ∃ j : Fin A.length, ((A.get j).2).key = hk
  wf : ParentWF A
  pres : ∀ i : Fin A.length, ((A.get i).2).parent ≠ "" →
    ∃ p, alookup ((A.get i).2).parent A = some p ∧
      p.key = ((A.get i).2).parentKey ∧
      p.burnBlockHeight ≤ ((A.get i).2).burnBlockHeight
  rootChar : ∀ i : Fin A.length,
    ((A.get i).2).parent = "" ↔
      ∀ j : Fin A.length, (j : Nat) < (i : Nat) →
        ((A.get j).2).key ≠ ((A.get i).2).parentKey

theorem scanInv_nil :
    ScanInv ([] : List (String × BlockCommit))
      ([] : List (hashkey × String)) := by
  refine { nodupKeys := by simp, noEmptyKey := by simp,
           keyTx := fun i => absurd i.isLt (by simp),
           flagsFalse := fun i => absurd i.isLt (by simp),
           mreg := fun hk tx h => by simp [alookup] at h,
           mkeys := fun hk => ?_,
           wf := fun i => absurd i.isLt (by simp),
           pres := fun i => absurd i.isLt (by simp),
           rootChar := fun i => absurd i.isLt (by simp) }
  constructor
  · intro h
    simp [alookup] at h
  · rintro ⟨j, _⟩
    exact absurd j.isLt (by simp)

theorem scanInv_step2 (A : List (String × BlockCommit))
    (M : List (hashkey × String)) (r : CommitRow) (inv : ScanInv A M)
    (hfresh : ¬ r.txid ∈ A.map Prod.fst) (hne : r.txid ≠ "")
    (hhk : ∀ hk tx, alookup hk M = some tx →
      hk.blockHeight ≤ r.burnBlockHeight) :
    ScanInv (A ++ [(r.txid, commitOfRow M r)])
      (ainsert ⟨r.burnBlockHeight, r.vtxindex⟩ r.txid M) := by
  have hnodup2 : ((A ++ [(r.txid, commitOfRow M r)]).map Prod.fst).Nodup := by
    rw [List.map_append]
    refine List.nodup_append.mpr ⟨inv.nodupKeys, by simp, ?_⟩
    intro a ha hb
    simp only [List.map_cons, List.map_nil, List.mem_singleton] at hb
    subst hb
    exact hfresh ha
  refine { nodupKeys := hnodup2, noEmptyKey := ?_, keyTx := ?_,
           flagsFalse := ?_, mreg := ?_, mkeys := ?_, wf := ?_, pres := ?_,
           rootChar := ?_ }
  · rw [List.map_append]
    intro hmem
    rcases List.mem_append.mp hmem with h1 | h1
    · exact inv.noEmptyKey h1
    · simp only [List.map_cons, List.map_nil, List.mem_singleton] at h1
      exact hne h1.symm
  · intro i
    have hi2 : (i : Nat) < A.length + 1 := by simpa using i.isLt
    by_cases hilt : (i : Nat) < A.length
    · rw [get_append_fin _ _ i hilt]
      exact inv.keyTx ⟨i, hilt⟩
    · have hieq : (i : Nat) = A.length := by omega
      rw [get_append_fin_last _ _ i hieq]
      rfl
  · intro i
    have hi2 : (i : Nat) < A.length + 1 := by simpa using i.isLt
    by_cases hilt : (i : Nat) < A.length
    · rw [get_append_fin _ _ i hilt]
      exact inv.flagsFalse ⟨i, hilt⟩
    · have hieq : (i : Nat) = A.length := by omega
      rw [get_append_fin_last _ _ i hieq]
      exact ⟨rfl, rfl, rfl, rfl, rfl⟩
  · intro hk tx h
    rw [alookup_ainsert] at h
    split_ifs at h with hkk
    · cases h
      refine ⟨⟨A.length, fin_last_bound A _⟩, ?_, ?_, ?_⟩
      · rw [get_append_fin_last _ _ _ rfl]
      · rw [get_append_fin_last _ _ _ rfl]
        show (⟨r.burnBlockHeight, r.vtxindex⟩ : hashkey) = hk
        exact hkk
      · rw [get_append_fin_last _ _ _ rfl]
        show r.burnBlockHeight = hk.blockHeight
        rw [← hkk]
    · obtain ⟨j, hj1, hj2, hj3⟩ := inv.mreg hk tx h
      refine ⟨⟨j, fin_lift_bound A _ j j.isLt⟩, ?_, ?_, ?_⟩
      · rw [get_append_fin _ _ _ (by simpa using j.isLt)]
        exact hj1
      · rw [get_append_fin _ _ _ (by simpa using j.isLt)]
        exact hj2
      · rw [get_append_fin _ _ _ (by simpa using j.isLt)]
        exact hj3
  · intro hk
    rw [alookup_ainsert]
    split_ifs with hkk
    · simp only [Option.isSome_some]
      constructor
      · intro _
        refine ⟨⟨A.length, fin_last_bound A _⟩, ?_⟩
        rw [get_append_fin_last _ _ _ rfl]
        exact hkk
      · intro _
        trivial
    · constructor
      · intro hsome
        obtain ⟨j, hj⟩ := (inv.mkeys hk).mp hsome
        refine ⟨⟨j, fin_lift_bound A _ j j.isLt⟩, ?_⟩
        rw [get_append_fin _ _ _ (by simpa using j.isLt)]
        exact hj
      · rintro ⟨j, hj⟩
        have hj2 : (j : Nat) < A.length + 1 := by simpa using j.isLt
        by_cases hjlt : (j : Nat) < A.length
        · rw [get_append_fin _ _ j hjlt] at hj
          exact (inv.mkeys hk).mpr ⟨⟨j, hjlt⟩, hj⟩
        · have hjeq : (j : Nat) = A.length := by omega
          rw [get_append_fin_last _ _ j hjeq] at hj
          exact absurd hj hkk
  · intro i j hij
    have hi2 : (i : Nat) < A.length + 1 := by simpa using i.isLt
    have hj2 : (j : Nat) < A.length + 1 := by simpa using j.isLt
    by_cases hilt : (i : Nat) < A.length
    · by_cases hjlt : (j : Nat) < A.length
      · rw [get_append_fin _ _ j hjlt, get_append_fin _ _ i hilt] at hij
        exact inv.wf ⟨i, hilt⟩ ⟨j, hjlt⟩ hij
      · have hjeq : (j : Nat) = A.length := by omega
        rw [get_append_fin_last _ _ j hjeq, get_append_fin _ _ i hilt] at hij
        exfalso
        by_cases hpe : ((A.get ⟨i, hilt⟩).2).parent = ""
        · rw [hpe] at hij
          exact hne hij
        · obtain ⟨p, hp, _, _⟩ := inv.pres ⟨i, hilt⟩ hpe
          have hmem : ((A.get ⟨i, hilt⟩).2).parent ∈ A.map Prod.fst :=
            mem_fst_of_alookup_isSome _ _ (by rw [hp]; rfl)
          rw [← hij] at hmem
          exact hfresh hmem
    · have hieq : (i : Nat) = A.length := by omega
      rw [get_append_fin_last _ _ i hieq] at hij
      show (j : Nat) < (i : Nat)
      cases hl : alookup (⟨r.parentBlockPtr, r.parentVtxindex⟩ : hashkey) M with
      | none =>
        exfalso
        have hcp : ((r.txid, commitOfRow M r)).2.parent = "" := by
          simp [commitOfRow, hl]
        rw [hcp] at hij
        by_cases hjlt : (j : Nat) < A.length
        · rw [get_append_fin _ _ j hjlt] at hij
          exact inv.noEmptyKey
            (hij ▸ List.mem_map_of_mem Prod.fst (List.get_mem A j hjlt))
        · have hjeq : (j : Nat) = A.length := by omega
          rw [get_append_fin_last _ _ j hjeq] at hij
          exact hne hij
      | some tx =>
        have hcp : ((r.txid, commitOfRow M r)).2.parent = tx := by
          simp [commitOfRow, hl]
        rw [hcp] at hij
        obtain ⟨j0, hj01, _, _⟩ := inv.mreg _ tx hl
        have hj0n := j0.isLt
        have hjj0 : (j : Nat) = (j0 : Nat) := by
          apply nodup_fst_get_inj _ hnodup2 j ⟨j0, fin_lift_bound A _ j0 j0.isLt⟩
          rw [hij, get_append_fin _ _ _ (by simpa using j0.isLt)]
          exact hj01.symm
        omega
  · intro i hp
    have hi2 : (i : Nat) < A.length + 1 := by simpa using i.isLt
    by_cases hilt : (i : Nat) < A.length
    · rw [get_append_fin _ _ i hilt] at hp ⊢
      obtain ⟨p, hpl, hpk, hph⟩ := inv.pres ⟨i, hilt⟩ hp
      exact ⟨p, alookup_append_some _ _ _ _ hpl, hpk, hph⟩
    · have hieq : (i : Nat) = A.length := by omega
      rw [get_append_fin_last _ _ i hieq] at hp ⊢
      cases hl : alookup (⟨r.parentBlockPtr, r.parentVtxindex⟩ : hashkey) M with
      | none =>
        exfalso
        exact hp (by simp [commitOfRow, hl])
      | some tx =>
        have hcp : ((r.txid, commitOfRow M r)).2.parent = tx := by
          simp [commitOfRow, hl]
        rw [hcp]
        obtain ⟨j0, hj01, hj0k, hj0h⟩ := inv.mreg _ tx hl
        have hlook0 : alookup tx A = some (A.get j0).2 := by
          have hx := alookup_get_of_nodup A inv.nodupKeys j0
          rw [hj01] at hx
          exact hx
        refine ⟨(A.get j0).2, alookup_append_some _ _ _ _ hlook0, ?_, ?_⟩
        · rw [hj0k]
          rfl
        · rw [hj0h]
          exact hhk _ tx hl
  · intro i
    have hi2 : (i : Nat) < A.length + 1 := by simpa using i.isLt
    by_cases hilt : (i : Nat) < A.length
    · rw [get_append_fin _ _ i hilt]
      constructor
      · intro hroot j hji
        have hj2 : (j : Nat) < A.length + 1 := by simpa using j.isLt
        have hjlt : (j : Nat) < A.length := by omega
        rw [get_append_fin _ _ j hjlt]
        exact (inv.rootChar ⟨i, hilt⟩).mp hroot ⟨j, hjlt⟩ hji
      · intro hall
        refine (inv.rootChar ⟨i, hilt⟩).mpr ?_
        intro j hji
        have hx := hall ⟨j, fin_lift_bound A _ j j.isLt⟩ hji
        rw [get_append_fin _ _ _ (by simpa using j.isLt)] at hx
        exact hx
    · have hieq : (i : Nat) = A.length := by omega
      rw [get_append_fin_last _ _ i hieq]
      cases hl : alookup (⟨r.parentBlockPtr, r.parentVtxindex⟩ : hashkey) M with
      | none =>
        have hcp : ((r.txid, commitOfRow M r)).2.parent = "" := by
          simp [commitOfRow, hl]
        constructor
        · intro _ j hji
          have hj2 : (j : Nat) < A.length + 1 := by simpa using j.isLt
          have hjlt : (j : Nat) < A.length := by omega
          rw [get_append_fin _ _ j hjlt]
          intro hkeq
          have hsome : (alookup (⟨r.parentBlockPtr, r.parentVtxindex⟩ :
              hashkey) M).isSome = true :=
            (inv.mkeys _).mpr ⟨⟨j, hjlt⟩, hkeq⟩
          rw [hl] at hsome
          simp at hsome
        · intro _
          exact hcp
      | some tx =>
        have hcp : ((r.txid, commitOfRow M r)).2.parent = tx := by
          simp [commitOfRow, hl]
        obtain ⟨j0, hj01, hj0k, _⟩ := inv.mreg _ tx hl
        have htx : tx ≠ "" := by
          intro hh
          apply inv.noEmptyKey
          rw [← hh, ← hj01]
          exact List.mem_map_of_mem Prod.fst (List.get_mem A j0 j0.isLt)
        constructor
        · intro hroot
          exfalso
          rw [hcp] at hroot
          exact htx hroot
        · intro hall
          exfalso
          have hj0n := j0.isLt
          have hx := hall ⟨j0, fin_lift_bound A _ j0 j0.isLt⟩
            (by show (j0 : Nat) < (i : Nat); omega)
          rw [get_append_fin _ _ _ (by simpa using j0.isLt)] at hx
          exact hx hj0k

theorem scanInv_run :
    ∀ (rows : List CommitRow) (s : ScanState),
      ScanInv s.allCommits s.hashMap →
      (∀ r2 ∈ rows, ¬ r2.txid ∈ s.allCommits.map Prod.fst ∧ r2.txid ≠ "") →
      (rows.map CommitRow.txid).Nodup →
      List.Pairwise (fun a c => a.burnBlockHeight ≤ c.burnBlockHeight) rows →
      (∀ hk tx, alookup hk s.hashMap = some tx →
        ∀ r2 ∈ rows, hk.blockHeight ≤ r2.burnBlockHeight) →
      ScanInv (scanRowsP rows s).allCommits (scanRowsP rows s).hashMap := by
  intro rows
  induction rows with
  | nil => intro s inv _ _ _ _; exact inv
  | cons r rs ih =>
    intro s inv hfr hnd hsort hhk
    obtain ⟨hfr1, hne1⟩ := hfr r (List.mem_cons_self r rs)
    have hsort1 := (List.pairwise_cons.mp hsort).1
    have hsort2 := (List.pairwise_cons.mp hsort).2
    simp only [List.map_cons] at hnd
    have hnd1 := (List.nodup_cons.mp hnd).1
    have hnd2 := (List.nodup_cons.mp hnd).2
    have hstepA : (stepRow s r).allCommits
        = s.allCommits ++ [(r.txid, commitOfRow s.hashMap r)] := by
      show ainsert r.txid (commitOfRow s.hashMap r) s.allCommits = _
      exact ainsert_append_of_not_mem _ _ _ hfr1
    have hstepM : (stepRow s r).hashMap
        = ainsert ⟨r.burnBlockHeight, r.vtxindex⟩ r.txid s.hashMap := rfl
    have inv2 : ScanInv (stepRow s r).allCommits (stepRow s r).hashMap := by
      rw [hstepA, hstepM]
      exact scanInv_step2 s.allCommits s.hashMap r inv hfr1 hne1
        (fun hk tx h => hhk hk tx h r (List.mem_cons_self r rs))
    show ScanInv (scanRowsP rs (stepRow s r)).allCommits
      (scanRowsP rs (stepRow s r)).hashMap
    apply ih (stepRow s r) inv2 ?_ hnd2 hsort2 ?_
    · intro r2 hr2
      rw [hstepA]
      constructor
      · rw [List.map_append]
        intro hmem
        rcases List.mem_append.mp hmem with h1 | h1
        · exact (hfr r2 (List.mem_cons_of_mem _ hr2)).1 h1
        · simp only [List.map_cons, List.map_nil, List.mem_singleton] at h1
          apply hnd1
          rw [← h1]
          exact List.mem_map_of_mem CommitRow.txid hr2
      · exact (hfr r2 (List.mem_cons_of_mem _ hr2)).2
    · intro hk tx h r2 hr2
      rw [hstepM, alookup_ainsert] at h
      split_ifs at h with hkk
      · have hkb : hk.blockHeight = r.burnBlockHeight := by rw [← hkk]
        rw [hkb]
        exact hsort1 r2 hr2
      · exact hhk hk tx h r2 (List.mem_cons_of_mem _ hr2)

/-- The bid graph built by the loader from an error-free row sequence. -/
def loaderGraph (rows : List CommitRow) : List (String × BlockCommit) :=
  (fetchCommitDataRows rows).AllCommits

theorem loaderGraph_inv (rows : List CommitRow)
    (hnd : (rows.map CommitRow.txid).Nodup)
    (hne : ∀ r ∈ rows, r.txid ≠ "")
    (hsort : List.Pairwise
      (fun a c => a.burnBlockHeight ≤ c.burnBlockHeight) rows) :
    ScanInv (loaderGraph rows) (scanRowsP rows ⟨[], []⟩).hashMap :=
  scanInv_run rows ⟨[], []⟩ scanInv_nil
    (fun r2 h => ⟨by simp, hne r2 h⟩) hnd hsort
    (fun hk tx h => by simp [alookup] at h)

/-- C10: for every ascending row input with pairwise-distinct nonempty bid
ids (the data model's unique ids), the loader's resolved-parent relation is
well-founded — each resolved parent occurs strictly earlier in the scan than
the bid referencing it — so no chain of parent links contains a cycle, and
the backward canonical walk from any starting id reaches a lookup miss (a
window-boundary root's empty parent, or an id absent from the graph) within
finitely many steps, hence terminates. -/
theorem C10_loader_wellfounded (rows : List CommitRow)
    (hnd : (rows.map CommitRow.txid).Nodup)
    (hne : ∀ r ∈ rows, r.txid ≠ "")
    (hsort : List.Pairwise
      (fun a c => a.burnBlockHeight ≤ c.burnBlockHeight) rows) :
    ParentWF (loaderGraph rows) ∧
      (∀ t n, hops (loaderGraph rows) (n + 1) t = some t → False) ∧
      (∀ t, ∃ n, n ≤ (loaderGraph rows).length + 1 ∧
        hops (loaderGraph rows) n t = none) := by
  have hwf : ParentWF (loaderGraph rows) :=
    (loaderGraph_inv rows hnd hne hsort).wf
  exact ⟨hwf, fun t n h => hops_no_cycle _ hwf t n h,
    fun t => walk_reaches_end _ hwf t⟩

/-- Concrete two-bid chain used to witness C10. -/
def wrowsC10 : List CommitRow :=
  [{ burnHeaderHash := "bhA", txid := "cA", sender := "mA", sortitionId := "sA"
     vtxindex := 0, burnBlockHeight := 5, spend := 10, parentBlockPtr := 4
     parentVtxindex := 0, memo := "" },
   { burnHeaderHash := "bhB", txid := "cB", sender := "mB", sortitionId := "sB"
     vtxindex := 0, burnBlockHeight := 6, spend := 20, parentBlockPtr := 5
     parentVtxindex := 0, memo := "" }]

/-- Witness for C10 at a concrete two-bid chain. -/
theorem C10_loader_wellfounded_witness :
    ((wrowsC10.map CommitRow.txid).Nodup ∧ (∀ r ∈ wrowsC10, r.txid ≠ "") ∧
        List.Pairwise (fun a c => a.burnBlockHeight ≤ c.burnBlockHeight)
          wrowsC10) ∧
      ParentWF (loaderGraph wrowsC10) :=
  ⟨⟨by decide, by decide, by decide⟩,
    (C10_loader_wellfounded wrowsC10 (by decide) (by decide) (by decide)).1⟩

/-- C6: for every ascending row input with pairwise-distinct nonempty bid
ids, every bid of the built graph whose parent reference was resolved points
to a stored bid whose positional key equals the referencing bid's declared
parent reference and whose height is at most the referencing bid's height;
and a bid's parent link is empty exactly when no earlier-scanned bid
registered the declared parent key (a window-boundary root). -/
theorem C6_parent_resolution (rows : List CommitRow)
    (hsort : List.Pairwise
      (fun a c => a.burnBlockHeight ≤ c.burnBlockHeight) rows)
    (hnd : (rows.map CommitRow.txid).Nodup)
    (hne : ∀ r ∈ rows, r.txid ≠ "") :
    ∀ i : Fin (loaderGraph rows).length,
      ((((loaderGraph rows).get i).2).parent ≠ "" →
        ∃ p, alookup (((loaderGraph rows).get i).2).parent
            (loaderGraph rows) = some p ∧
          p.key = (((loaderGraph rows).get i).2).parentKey ∧
          p.burnBlockHeight ≤ (((loaderGraph rows).get i).2).burnBlockHeight) ∧
      ((((loaderGraph rows).get i).2).parent = "" ↔
        ∀ j : Fin (loaderGraph rows).length, (j : Nat) < (i : Nat) →
          (((loaderGraph rows).get j).2).key ≠
            (((loaderGraph rows).get i).2).parentKey) := by
  have inv := loaderGraph_inv rows hnd hne hsort
  exact fun i => ⟨inv.pres i, inv.rootChar i⟩

/-- Concrete two-bid chain used to witness C6 (the bid cB resolves its parent
to cA, registered one height earlier). -/
def wrowsC6 : List CommitRow :=
  [{ burnHeaderHash := "bh1", txid := "cA", sender := "m1", sortitionId := "s1"
     vtxindex := 0, burnBlockHeight := 7, spend := 11, parentBlockPtr := 6
     parentVtxindex := 0, memo := "" },
   { burnHeaderHash := "bh2", txid := "cB", sender := "m2", sortitionId := "s2"
     vtxindex := 0, burnBlockHeight := 8, spend := 12, parentBlockPtr := 7
     parentVtxindex := 0, memo := "" }]

/-- Witness for C6 at the second stored bid of a concrete two-bid chain. -/
theorem C6_parent_resolution_witness :
    (List.Pairwise (fun a c => a.burnBlockHeight ≤ c.burnBlockHeight) wrowsC6 ∧
        (wrowsC6.map CommitRow.txid).Nodup ∧ (∀ r ∈ wrowsC6, r.txid ≠ "") ∧
        1 < (loaderGraph wrowsC6).length) ∧
      (((((loaderGraph wrowsC6).get ⟨1, by decide⟩).2).parent ≠ "" →
        ∃ p, alookup (((loaderGraph wrowsC6).get ⟨1, by decide⟩).2).parent
            (loaderGraph wrowsC6) = some p ∧
          p.key = (((loaderGraph wrowsC6).get ⟨1, by decide⟩).2).parentKey ∧
          p.burnBlockHeight ≤
            (((loaderGraph wrowsC6).get ⟨1, by decide⟩).2).burnBlockHeight) ∧
      ((((loaderGraph wrowsC6).get ⟨1, by decide⟩).2).parent = "" ↔
        ∀ j : Fin (loaderGraph wrowsC6).length, (j : Nat) < 1 →
          (((loaderGraph wrowsC6).get j).2).key ≠
            (((loaderGraph wrowsC6).get ⟨1, by decide⟩).2).parentKey)) :=
  ⟨⟨by decide, by decide, by decide, by decide⟩,
    C6_parent_resolution wrowsC6 (by decide) (by decide) (by decide)
      ⟨1, by decide⟩⟩

/-! ### Per-height pass (`processWinningBlocks`) and full pipeline -/

/-- One row of the `snapshots` winner oracle: the declared winning bid id, the
adopted-chain height and the consensus hash at a burn height. -/
structure Snapshot where
  winningTxid : String
  stacksHeight : Int
  consensusHash : String
deriving DecidableEq, Repr

/-- The inclusive ascending height loop `for h := lo; h <= hi; h++`. -/
def heightRange (lo hi : Int) : List Int :=
  (List.range (hi + 1 - lo).toNat).map (fun n : Nat => lo + Int.ofNat n)

/-- The best-effort enrichment tail of `processWinningCommit`: when the
adopted-chain height is positive, look up block hash / coinbase via the
payments oracle and tenure fees via the tenure-fee oracle; a miss leaves the
fields unchanged (only a warning is logged). -/
def enrichWinner (pay : String → Option (String × Int)) (tf : Int → Option Int)
    (sh : Int) (ch : String) (t : String) (hgt : Int)
    (ac : List (String × BlockCommit)) : List (String × BlockCommit) :=
  if sh > 0 then
    let ac3 := match pay ch with
      | some bc =>
        amodify t (fun x => { x with blockHash := bc.1, coinbaseEarned := bc.2 }) ac
      | none => ac
    match tf hgt with
    | some fe => amodify t (fun x => { x with feesEarned := fe }) ac3
    | none => ac3
  else ac

/-- `processWinningCommit`: mark the winning commit (`won`, `potentialTip`,
adopted-chain height), clear its resolved parent's `potentialTip` when that
parent is present in the graph, then best-effort enrich. -/
def processWinningCommit (pay : String → Option (String × Int))
    (tf : Int → Option Int) (sh : Int) (ch : String) (t : String)
    (c : BlockCommit) (ac : List (String × BlockCommit)) :
    List (String × BlockCommit) :=
  let pe := (alookup c.parent ac).isSome
  let ac1 := amodify t
    (fun x => { x with won := true, potentialTip := true, stacksHeight := sh }) ac
  let ac2 := if pe then
      amodify c.parent (fun x => { x with potentialTip := false }) ac1
    else ac1
  enrichWinner pay tf sh ch t c.burnBlockHeight ac2

/-- One commit of the per-height loop: stamp the adopted-chain height, and
run `processWinningCommit` when the commit's id matches the declared winner.
The lookup guard is unreachable on loader output with distinct ids (every
bucketed txid is a live key); the source holds pointers instead. -/
def commitStep (snh : Snapshot) (pay : String → Option (String × Int))
    (tf : Int → Option Int) (ac : List (String × BlockCommit)) (t : String) :
    List (String × BlockCommit) :=
  match alookup t ac with
  | none => ac
  | some c0 =>
    let ac3 := amodify t (fun x => { x with stacksHeight := snh.stacksHeight }) ac
    if c0.txid = snh.winningTxid then
      processWinningCommit pay tf snh.stacksHeight snh.consensusHash t c0 ac3
    else ac3

/-- One height of `processWinningBlocks`: skip heights with no commits,
otherwise process each commit at the height in bucket order. -/
def processOneHeight (sn : Int → Snapshot) (pay : String → Option (String × Int))
    (tf : Int → Option Int) (cbb : List (Int × List String)) (h : Int)
    (ac : List (String × BlockCommit)) : List (String × BlockCommit) :=
  match alookup h cbb with
  | none => ac
  | some ts => ts.foldl (commitStep (sn h) pay tf) ac

/-- `processWinningBlocks`: the ascending per-height pass over the window. -/
def processWinningBlocks (sn : Int → Snapshot)
    (pay : String → Option (String × Int)) (tf : Int → Option Int)
    (lower start : Int) (bc : BlockCommits) : BlockCommits :=
  let ac2 := (heightRange lower start).foldl
    (fun ac h => processOneHeight sn pay tf bc.CommitsByBlock h ac) bc.AllCommits
  { bc with AllCommits := ac2 }

/-- The computation of `dotsTask` up to graph rendering: load the bid graph,
run the per-height winning pass, then the canonical pass from the winner
declared at the top-of-window height. -/
def dotsTaskCore (sn : Int → Snapshot) (pay : String → Option (String × Int))
    (tf : Int → Option Int) (lower start : Int) (rows : List CommitRow) :
    BlockCommits :=
  let bc := fetchCommitDataRows rows
  let bc2 := processWinningBlocks sn pay tf lower start bc
  { bc2 with
    AllCommits := processCanonicalTip (sn start).winningTxid bc2.AllCommits }

/-- The fields of a commit that no pass ever changes: id, resolved parent,
height and positional keys. -/
def statProj (c : BlockCommit) : String × String × Int × hashkey × hashkey :=
  (c.txid, c.parent, c.burnBlockHeight, c.key, c.parentKey)

theorem heightRange_snoc (lo hi : Int) (h : lo ≤ hi) :
    heightRange lo hi = heightRange lo (hi - 1) ++ [hi] := by
  have hk : (hi + 1 - lo).toNat = (hi - lo).toNat + 1 := by omega
  have hk2 : (hi - 1 + 1 - lo).toNat = (hi - lo).toNat := by omega
  rw [heightRange, hk, List.range_succ, List.map_append, heightRange, hk2]
  congr 1
  simp only [List.map_cons, List.map_nil]
  congr 1
  simp only [Int.ofNat_eq_coe]
  omega

theorem mem_heightRange (lo hi x : Int) :
    x ∈ heightRange lo hi ↔ lo ≤ x ∧ x ≤ hi := by
  simp only [heightRange, List.mem_map, List.mem_range, Int.ofNat_eq_coe]
  constructor
  · rintro ⟨n, hn, rfl⟩
    omega
  · intro hx
    refine ⟨(x - lo).toNat, by omega, by omega⟩

/-! ### C2 — the `nextTip` flag is never assigned -/

/-- Snapshot oracle for the C2 scenario: bid a wins at height 1, bid b at
height 2. -/
def snC2 : Int → Snapshot :=
  fun h => if h = 2 then ⟨"b", 2, "c2"⟩ else ⟨"a", 1, "c1"⟩

/-- Two-bid chain for the C2 scenario: b at height 2 is the child of a at
height 1. -/
def wrowsC2 : List CommitRow :=
  [{ burnHeaderHash := "bh1", txid := "a", sender := "m1", sortitionId := "s1"
     vtxindex := 0, burnBlockHeight := 1, spend := 100, parentBlockPtr := 0
     parentVtxindex := 0, memo := "" },
   { burnHeaderHash := "bh2", txid := "b", sender := "m2", sortitionId := "s2"
     vtxindex := 0, burnBlockHeight := 2, spend := 200, parentBlockPtr := 1
     parentVtxindex := 0, memo := "" }]

/-- C2: evaluating the fully processed pipeline at a concrete input on which
the claim demands `nextTip = true`: in the final graph the canonical bid b at
height 2 has the bid a (at height 1) as its resolved parent, yet a's
`nextTip` flag is false — no pass of tasks.go ever assigns `nextTip`, even
though `makeNodeAttributes` reads it to colour such bids green. -/
theorem C2_nextTip_never_set :
    ((alookup "b" (dotsTaskCore snC2 (fun _ => none) (fun _ => none) 1 2
          wrowsC2).AllCommits).map
        (fun c => (c.canonical, c.burnBlockHeight, c.parent)) =
      some (true, 2, "a")) ∧
      ((alookup "a" (dotsTaskCore snC2 (fun _ => none) (fun _ => none) 1 2
            wrowsC2).AllCommits).map
          (fun c => (c.txid, c.burnBlockHeight, c.nextTip)) =
        some ("a", 1, false)) := by
  decide

/-! ### C7 — miner-power win totals -/

/-- One row of the recursive ancestor-chain query of `queryMinerPower`:
burn height, producer address, commit burn and total reward. -/
structure AncRow where
  burnHeight : Int
  address : String
  commitBurn : Nat
  stxReward : Nat
deriving DecidableEq, Repr

/-- A per-producer performance record (`miner` in tasks.go).  The source's
`StxEarnt` and `WinRate` fields are float32-valued and are not modelled. -/
structure miner where
  BitcoinAddress : String
  StacksRecipient : String
  BlocksWon : Nat
  BtcSpent : Nat
deriving DecidableEq, Repr

/-- The fixed trailing window of `queryMinerPower`. -/
def numBlocks : Nat := 144

/-- The synthetic bucket key for heights with no adopted block. -/
def noSortitionKey : String := "No Canonical Sortition"

/-- Go uint64 subtraction with wrap-around. -/
def usub64 (a b : Nat) : Nat :=
  (a + (18446744073709551616 - b % 18446744073709551616)) % 18446744073709551616

/-- Accumulator state of the row loop of `queryMinerPower`. -/
structure MPState where
  btcSpent : List (String × Nat)
  stxEarnt : List (String × Nat)
  addrCounts : List (String × Nat)
  numRows : Nat
deriving Repr

/-- One row of the loop of `queryMinerPower`: rows at or below the window's
lower bound are skipped, the rest bump the per-address aggregates. -/
def mpStep (lowerBound : Int) (s : MPState) (r : AncRow) : MPState :=
  if r.burnHeight ≤ lowerBound then s
  else
    { btcSpent := abump r.address r.commitBurn s.btcSpent
      stxEarnt := abump r.address r.stxReward s.stxEarnt
      addrCounts := abump r.address 1 s.addrCounts
      numRows := s.numRows + 1 }

/-- The per-address record list of `queryMinerPower` before sorting: run the
row loop, overwrite the synthetic "no winner" bucket with
`numBlocks - numRows` (uint64 arithmetic) and zero spend, then emit one
record per address (settlement-address lookup misses yield `""`). -/
def minerList (lowerBound : Int) (rows : List AncRow)
    (addrMap : String → Option String) : List miner :=
  let s := rows.foldl (mpStep lowerBound) ⟨[], [], [], 0⟩
  let addrCounts := ainsert noSortitionKey (usub64 numBlocks s.numRows)
    s.addrCounts
  let btcSpent := ainsert noSortitionKey 0 s.btcSpent
  addrCounts.foldl (fun acc e =>
    acc ++ [{ StacksRecipient := e.1
              BitcoinAddress := (addrMap e.1).getD ""
              BlocksWon := e.2
              BtcSpent := (alookup e.1 btcSpent).getD 0 }]) []

/-- `queryMinerPower`'s record computation: the record list sorted descending
by win count.  The source sorts with Go's `slices.SortFunc`, whose algorithm
is unspecified and not stability-guaranteed; it is modelled by a merge sort
with the same comparator, which agrees with it up to permutation of records
with equal win counts — only permutation-invariant facts are proved about the
output. -/
def queryMinerPowerCore (lowerBound : Int) (rows : List AncRow)
    (addrMap : String → Option String) : List miner :=
  (minerList lowerBound rows addrMap).mergeSort
    (fun a b => decide (b.BlocksWon ≤ a.BlocksWon))

/-- Total win count over a record list. -/
def sumWins (l : List miner) : Nat := (l.map miner.BlocksWon).sum

/-- Total of the values of a string-keyed counter map. -/
def sumVals (l : List (String × Nat)) : Nat := (l.map Prod.snd).sum

theorem sumWins_core_eq (lowerBound : Int) (rows : List AncRow)
    (addrMap : String → Option String) :
    sumWins (queryMinerPowerCore lowerBound rows addrMap) =
      sumWins (minerList lowerBound rows addrMap) := by
  unfold sumWins queryMinerPowerCore
  exact List.Perm.sum_eq (List.Perm.map miner.BlocksWon
    (List.mergeSort_perm (minerList lowerBound rows addrMap) _))

/-- Single ancestor row whose producer address collides with the synthetic
"no winner" bucket key. -/
def wrowsC7bad : List AncRow := [⟨1, "No Canonical Sortition", 0, 0⟩]

/-- C7, counterexample: one counted row whose address is literally the
synthetic bucket key "No Canonical Sortition".  The bucket assignment
overwrites that address's accumulated win, so the win counts total 143, not
the window size 144. -/
theorem C7_counterexample :
    wrowsC7bad.length ≤ 144 ∧
      sumWins (queryMinerPowerCore 0 wrowsC7bad (fun _ => none)) = 143 ∧
      (143 : Nat) ≠ 144 := by
  refine ⟨by decide, ?_, by decide⟩
  rw [sumWins_core_eq]
  decide

theorem sumVals_abump (k : String) (x : Nat) :
    ∀ m : List (String × Nat), sumVals (abump k x m) = sumVals m + x := by
  intro m
  induction m with
  | nil => simp [abump, ainsert, alookup, sumVals]
  | cons e l ih =>
    by_cases he : e.1 = k
    · simp [abump, ainsert, alookup, he, sumVals]
      omega
    · have hstep : abump k x (e :: l) = e :: abump k x l := by
        simp [abump, ainsert, alookup, he]
      rw [hstep]
      simp only [sumVals, List.map_cons, List.sum_cons] at ih ⊢
      omega

theorem sumVals_ainsert_append (k : String) (v : Nat)
    (m : List (String × Nat)) (h : ¬ k ∈ m.map Prod.fst) :
    sumVals (ainsert k v m) = sumVals m + v := by
  rw [ainsert_append_of_not_mem _ _ _ h]
  simp [sumVals]

theorem mem_fst_ainsert {K V : Type} [DecidableEq K] (k k2 : K) (v : V) :
    ∀ m : List (K × V),
      k2 ∈ (ainsert k v m).map Prod.fst → k2 ∈ m.map Prod.fst ∨ k2 = k := by
  intro m
  induction m with
  | nil =>
    intro h
    simp [ainsert] at h
    exact Or.inr h
  | cons e l ih =>
    intro h
    by_cases he : e.1 = k
    · rw [show ainsert k v (e :: l) = (k, v) :: l from by simp [ainsert, he]] at h
      simp only [List.map_cons, List.mem_cons] at h
      rcases h with h | h
      · exact Or.inr h
      · exact Or.inl (by simp only [List.map_cons, List.mem_cons]; exact Or.inr h)
    · rw [show ainsert k v (e :: l) = e :: ainsert k v l from
        by simp [ainsert, he]] at h
      simp only [List.map_cons, List.mem_cons] at h
      rcases h with h | h
      · exact Or.inl (by simp only [List.map_cons, List.mem_cons]; exact Or.inl h)
      · rcases ih h with h2 | h2
        · exact Or.inl
            (by simp only [List.map_cons, List.mem_cons]; exact Or.inr h2)
        · exact Or.inr h2

theorem mpFold_numRows (lb : Int) :
    ∀ (rows : List AncRow) (s : MPState),
      (rows.foldl (mpStep lb) s).numRows ≤ s.numRows + rows.length := by
  intro rows
  induction rows with
  | nil => intro s; simp
  | cons r rs ih =>
    intro s
    rw [List.foldl_cons]
    have hrec := ih (mpStep lb s r)
    have hstep : (mpStep lb s r).numRows ≤ s.numRows + 1 := by
      unfold mpStep
      split_ifs <;> simp
    simp only [List.length_cons]
    omega

theorem mpFold_sum (lb : Int) :
    ∀ (rows : List AncRow) (s : MPState),
      sumVals (rows.foldl (mpStep lb) s).addrCounts + s.numRows
        = sumVals s.addrCounts + (rows.foldl (mpStep lb) s).numRows := by
  intro rows
  induction rows with
  | nil => intro s; rfl
  | cons r rs ih =>
    intro s
    rw [List.foldl_cons]
    by_cases hskip : r.burnHeight ≤ lb
    · rw [show mpStep lb s r = s from by simp [mpStep, hskip]]
      exact ih s
    · have hh := ih (mpStep lb s r)
      have ha : (mpStep lb s r).addrCounts = abump r.address 1 s.addrCounts := by
        simp [mpStep, hskip]
      have hn : (mpStep lb s r).numRows = s.numRows + 1 := by
        simp [mpStep, hskip]
      have hsv : sumVals (mpStep lb s r).addrCounts
          = sumVals s.addrCounts + 1 := by
        rw [ha, sumVals_abump]
      rw [hn, hsv] at hh
      omega

theorem mpFold_keys (lb : Int) :
    ∀ (rows : List AncRow) (s : MPState) (k : String),
      k ∈ ((rows.foldl (mpStep lb) s).addrCounts).map Prod.fst →
      k ∈ s.addrCounts.map Prod.fst ∨ ∃ r ∈ rows, r.address = k := by
  intro rows
  induction rows with
  | nil => intro s k h; exact Or.inl h
  | cons r rs ih =>
    intro s k h
    rw [List.foldl_cons] at h
    rcases ih (mpStep lb s r) k h with h1 | h1
    · by_cases hskip : r.burnHeight ≤ lb
      · rw [show mpStep lb s r = s from by simp [mpStep, hskip]] at h1
        exact Or.inl h1
      · rw [show (mpStep lb s r).addrCounts = abump r.address 1 s.addrCounts
          from by simp [mpStep, hskip]] at h1
        simp only [abump] at h1
        rcases mem_fst_ainsert _ _ _ _ h1 with h2 | h2
        · exact Or.inl h2
        · exact Or.inr ⟨r, List.mem_cons_self r rs, h2.symm⟩
    · obtain ⟨r2, hr2, hr2a⟩ := h1
      exact Or.inr ⟨r2, List.mem_cons_of_mem _ hr2, hr2a⟩

theorem sumWins_buildFold (addrMap : String → Option String)
    (btc : List (String × Nat)) :
    ∀ (ac : List (String × Nat)) (acc : List miner),
      sumWins (ac.foldl (fun acc2 e =>
          acc2 ++ [{ StacksRecipient := e.1
                     BitcoinAddress := (addrMap e.1).getD ""
                     BlocksWon := e.2
                     BtcSpent := (alookup e.1 btc).getD 0 }]) acc)
        = sumWins acc + sumVals ac := by
  intro ac
  induction ac with
  | nil => intro acc; simp [sumVals]
  | cons e l ih =>
    intro acc
    rw [List.foldl_cons, ih]
    simp only [sumWins, sumVals, List.map_append, List.sum_append,
      List.map_cons, List.sum_cons, List.map_nil, List.sum_nil]
    omega

theorem usub64_small (a b : Nat) (ha : a < 18446744073709551616) (hb : b ≤ a) :
    usub64 a b = a - b := by
  unfold usub64
  omega

/-- C7, amended: for every input row sequence of length at most the window
size whose producer addresses are all distinct from the synthetic bucket key
"No Canonical Sortition", the win counts of the emitted records (including
the synthetic "no winner" bucket, which equals windowSize minus the number of
counted rows) total the window size 144 exactly. -/
theorem C7_win_total (lb : Int) (rows : List AncRow)
    (am : String → Option String) (hlen : rows.length ≤ 144)
    (haddr : ∀ r ∈ rows, r.address ≠ noSortitionKey) :
    sumWins (queryMinerPowerCore lb rows am) = 144 := by
  rw [sumWins_core_eq]
  simp only [minerList, numBlocks]
  rw [sumWins_buildFold]
  have hnum := mpFold_numRows lb rows ⟨[], [], [], 0⟩
  have hsum := mpFold_sum lb rows ⟨[], [], [], 0⟩
  have hkey : ¬ noSortitionKey ∈
      ((rows.foldl (mpStep lb) ⟨[], [], [], 0⟩).addrCounts).map Prod.fst := by
    intro hmem
    rcases mpFold_keys lb rows ⟨[], [], [], 0⟩ noSortitionKey hmem with h1 | h1
    · simp at h1
    · obtain ⟨r2, hr2, hr2a⟩ := h1
      exact haddr r2 hr2 hr2a
  rw [sumVals_ainsert_append _ _ _ hkey]
  have h0 : (⟨[], [], [], 0⟩ : MPState).numRows = 0 := rfl
  have h1 : sumVals (⟨[], [], [], 0⟩ : MPState).addrCounts = 0 := rfl
  rw [h0] at hnum hsum
  rw [h1] at hsum
  rw [usub64_small 144 _ (by norm_num) (by omega)]
  simp only [sumWins, List.map_nil, List.sum_nil, Nat.zero_add]
  omega

/-- Concrete one-row input used to witness C7's amended total. -/
def wrowsC7 : List AncRow := [⟨10, "addr1", 5, 7⟩]

/-- Witness for C7's amended theorem at a concrete one-row input. -/
theorem C7_win_total_witness :
    (wrowsC7.length ≤ 144 ∧ (∀ r ∈ wrowsC7, r.address ≠ noSortitionKey)) ∧
      sumWins (queryMinerPowerCore 0 wrowsC7 (fun _ => none)) = 144 :=
  ⟨⟨by decide, by decide⟩, C7_win_total 0 wrowsC7 (fun _ => none)
    (by decide) (by decide)⟩

/-! ### C5 — the per-height pass leaves exactly one potential tip -/

/-- The pass never changes a commit's id, resolved parent, height or
positional keys, and never changes which ids are bound: the current graph's
bindings agree with the base graph `a` on all static fields. -/
def SameStatic (a ac : List (String × BlockCommit)) : Prop :=
  ∀ k, (alookup k ac).map statProj = (alookup k a).map statProj

theorem sameStatic_refl (a : List (String × BlockCommit)) : SameStatic a a :=
  fun _ => rfl

theorem sameStatic_amodify {a ac : List (String × BlockCommit)} (t : String)
    (f : BlockCommit → BlockCommit) (hf : ∀ c, statProj (f c) = statProj c)
    (hs : SameStatic a ac) : SameStatic a (amodify t f ac) := by
  intro k
  rw [alookup_amodify]
  split_ifs with h
  · rw [← hs k]
    cases alookup k ac <;> simp [hf]
  · exact hs k

theorem sameStatic_lookup {a ac : List (String × BlockCommit)}
    (hs : SameStatic a ac) {k : String} {c : BlockCommit}
    (h : alookup k ac = some c) :
    ∃ cb, alookup k a = some cb ∧ c.txid = cb.txid ∧ c.parent = cb.parent ∧
      c.burnBlockHeight = cb.burnBlockHeight := by
  have hk := hs k
  rw [h] at hk
  cases ha : alookup k a with
  | none => rw [ha] at hk; simp at hk
  | some cb =>
    rw [ha] at hk
    simp only [Option.map_some'] at hk
    have hcc := Option.some.inj hk
    simp only [statProj, Prod.mk.injEq] at hcc
    exact ⟨cb, rfl, hcc.1, hcc.2.1, hcc.2.2.1⟩

theorem sameStatic_lookup_rev {a ac : List (String × BlockCommit)}
    (hs : SameStatic a ac) {k : String} {cb : BlockCommit}
    (h : alookup k a = some cb) :
    ∃ c, alookup k ac = some c ∧ c.txid = cb.txid ∧ c.parent = cb.parent ∧
      c.burnBlockHeight = cb.burnBlockHeight := by
  have hk := hs k
  rw [h] at hk
  cases ha : alookup k ac with
  | none => rw [ha] at hk; simp at hk
  | some c =>
    rw [ha] at hk
    simp only [Option.map_some'] at hk
    have hcc := Option.some.inj hk
    simp only [statProj, Prod.mk.injEq] at hcc
    exact ⟨c, rfl, hcc.1, hcc.2.1, hcc.2.2.1⟩

theorem map_pT_amodify_pres (t k : String) (f : BlockCommit → BlockCommit)
    (hf : ∀ x, (f x).potentialTip = x.potentialTip)
    (ac : List (String × BlockCommit)) :
    (alookup k (amodify t f ac)).map (fun x => x.potentialTip)
      = (alookup k ac).map (fun x => x.potentialTip) := by
  rw [alookup_amodify]
  split_ifs with h
  · cases alookup k ac <;> simp [hf]
  · rfl

theorem map_pT_amodify_self (t : String) (f : BlockCommit → BlockCommit)
    (b : Bool) (hf : ∀ x, (f x).potentialTip = b)
    (ac : List (String × BlockCommit)) :
    (alookup t (amodify t f ac)).map (fun x => x.potentialTip)
      = (alookup t ac).map (fun _ => b) := by
  rw [alookup_amodify, if_pos rfl]
  cases alookup t ac <;> simp [hf]

theorem map_pT_amodify_other (t k : String) (hne : ¬ t = k)
    (f : BlockCommit → BlockCommit) (ac : List (String × BlockCommit)) :
    (alookup k (amodify t f ac)).map (fun x => x.potentialTip)
      = (alookup k ac).map (fun x => x.potentialTip) := by
  rw [alookup_amodify, if_neg hne]

theorem enrich_pT (pay : String → Option (String × Int))
    (tf : Int → Option Int) (sh : Int) (ch : String) (t : String) (hgt : Int)
    (ac : List (String × BlockCommit)) (k : String) :
    (alookup k (enrichWinner pay tf sh ch t hgt ac)).map
        (fun x => x.potentialTip)
      = (alookup k ac).map (fun x => x.potentialTip) := by
  simp only [enrichWinner]
  split_ifs with hsh
  · cases htf : tf hgt with
    | none =>
      cases hpay : pay ch with
      | none => rfl
      | some bc =>
        exact map_pT_amodify_pres t k
          (fun x => { x with blockHash := bc.1, coinbaseEarned := bc.2 })
          (fun x => rfl) ac
    | some fe =>
      cases hpay : pay ch with
      | none =>
        exact map_pT_amodify_pres t k (fun x => { x with feesEarned := fe })
          (fun x => rfl) ac
      | some bc =>
        calc (alookup k (amodify t (fun x => { x with feesEarned := fe })
              (amodify t (fun x =>
                { x with blockHash := bc.1, coinbaseEarned := bc.2 }) ac))).map
              (fun x => x.potentialTip)
            = (alookup k (amodify t (fun x =>
                { x with blockHash := bc.1, coinbaseEarned := bc.2 }) ac)).map
              (fun x => x.potentialTip) :=
              map_pT_amodify_pres t k (fun x => { x with feesEarned := fe })
                (fun x => rfl) _
          _ = (alookup k ac).map (fun x => x.potentialTip) :=
              map_pT_amodify_pres t k
                (fun x => { x with blockHash := bc.1, coinbaseEarned := bc.2 })
                (fun x => rfl) ac
  · rfl

theorem enrich_static {a : List (String × BlockCommit)}
    (pay : String → Option (String × Int)) (tf : Int → Option Int) (sh : Int)
    (ch : String) (t : String) (hgt : Int)
    (ac : List (String × BlockCommit)) (hs : SameStatic a ac) :
    SameStatic a (enrichWinner pay tf sh ch t hgt ac) := by
  simp only [enrichWinner]
  split_ifs with hsh
  · cases htf : tf hgt with
    | none =>
      cases hpay : pay ch with
      | none => exact hs
      | some bc =>
        exact sameStatic_amodify t
          (fun x => { x with blockHash := bc.1, coinbaseEarned := bc.2 })
          (fun x => rfl) hs
    | some fe =>
      cases hpay : pay ch with
      | none =>
        exact sameStatic_amodify t (fun x => { x with feesEarned := fe })
          (fun x => rfl) hs
      | some bc =>
        exact sameStatic_amodify t (fun x => { x with feesEarned := fe })
          (fun x => rfl)
          (sameStatic_amodify t
            (fun x => { x with blockHash := bc.1, coinbaseEarned := bc.2 })
            (fun x => rfl) hs)
  · exact hs

theorem pwc_static {a : List (String × BlockCommit)}
    (pay : String → Option (String × Int)) (tf : Int → Option Int) (sh : Int)
    (ch : String) (t : String) (c : BlockCommit)
    (ac : List (String × BlockCommit)) (hs : SameStatic a ac) :
    SameStatic a (processWinningCommit pay tf sh ch t c ac) := by
  simp only [processWinningCommit]
  apply enrich_static
  split_ifs with hpe
  · exact sameStatic_amodify _ _ (fun x => rfl)
      (sameStatic_amodify _ _ (fun x => rfl) hs)
  · exact sameStatic_amodify _ _ (fun x => rfl) hs

theorem pwc_pT (pay : String → Option (String × Int)) (tf : Int → Option Int)
    (sh : Int) (ch : String) (t : String) (c : BlockCommit)
    (ac : List (String × BlockCommit)) (hpt : ¬ c.parent = t) (k : String) :
    (alookup k (processWinningCommit pay tf sh ch t c ac)).map
        (fun x => x.potentialTip)
      = if t = k then (alookup k ac).map (fun _ => true)
        else if c.parent = k then (alookup k ac).map (fun _ => false)
        else (alookup k ac).map (fun x => x.potentialTip) := by
  simp only [processWinningCommit]
  rw [enrich_pT]
  by_cases htk : t = k
  · subst htk
    rw [if_pos rfl]
    split_ifs with hpe
    · rw [map_pT_amodify_other c.parent t hpt,
        map_pT_amodify_self t _ true (fun x => rfl)]
    · rw [map_pT_amodify_self t _ true (fun x => rfl)]
  · rw [if_neg htk]
    by_cases hck : c.parent = k
    · subst hck
      rw [if_pos rfl]
      split_ifs with hpe
      · rw [map_pT_amodify_self c.parent _ false (fun x => rfl),
          alookup_amodify, if_neg htk]
      · have hnone : alookup c.parent ac = none := by
          cases hx : alookup c.parent ac
          · rfl
          · exact absurd (by rw [hx]; rfl) hpe
        rw [alookup_amodify, if_neg htk, hnone]
        rfl
    · rw [if_neg hck]
      split_ifs with hpe
      · rw [map_pT_amodify_other c.parent k hck, map_pT_amodify_other t k htk]
      · rw [map_pT_amodify_other t k htk]

theorem commitStep_static {a : List (String × BlockCommit)} (snh : Snapshot)
    (pay : String → Option (String × Int)) (tf : Int → Option Int)
    (ac : List (String × BlockCommit)) (t : String) (hs : SameStatic a ac) :
    SameStatic a (commitStep snh pay tf ac t) := by
  unfold commitStep
  cases hc : alookup t ac with
  | none => exact hs
  | some c0 =>
    simp only []
    split_ifs with hw
    · exact pwc_static _ _ _ _ _ _ _
        (sameStatic_amodify t
          (fun x => { x with stacksHeight := snh.stacksHeight })
          (fun x => rfl) hs)
    · exact sameStatic_amodify t
        (fun x => { x with stacksHeight := snh.stacksHeight })
        (fun x => rfl) hs

theorem commitStep_pT_nonw (snh : Snapshot)
    (pay : String → Option (String × Int)) (tf : Int → Option Int)
    (ac : List (String × BlockCommit)) (t : String)
    (hnw : ∀ c0, alookup t ac = some c0 → ¬ c0.txid = snh.winningTxid)
    (k : String) :
    (alookup k (commitStep snh pay tf ac t)).map (fun x => x.potentialTip)
      = (alookup k ac).map (fun x => x.potentialTip) := by
  unfold commitStep
  cases hc : alookup t ac with
  | none => rfl
  | some c0 =>
    simp only []
    rw [if_neg (hnw c0 hc)]
    exact map_pT_amodify_pres t k
      (fun x => { x with stacksHeight := snh.stacksHeight }) (fun x => rfl) ac

/-- No bid at height `H` carries the `potentialTip` flag. -/
def NoPT (H : Int) (ac : List (String × BlockCommit)) : Prop :=
  ∀ k c, alookup k ac = some c → c.burnBlockHeight = H →
    c.potentialTip = false

/-- State after the winner `w` of height `H` has been processed: a bid at
height `H` carries `potentialTip` exactly when it is `w`, and the commit
resolved as `w`'s parent (when present) does not carry it. -/
def WinSt (H : Int) (w : String) (ac : List (String × BlockCommit)) : Prop :=
  (∀ k c, alookup k ac = some c → c.burnBlockHeight = H →
    (c.potentialTip = true ↔ k = w)) ∧
  (∀ cw p, alookup w ac = some cw → alookup cw.parent ac = some p →
    p.potentialTip = false)

theorem pT_map_elim {ac2 ac : List (String × BlockCommit)} {k : String}
    (hm : (alookup k ac2).map (fun x => x.potentialTip)
      = (alookup k ac).map (fun x => x.potentialTip))
    {c : BlockCommit} (h : alookup k ac2 = some c) :
    ∃ c0, alookup k ac = some c0 ∧ c.potentialTip = c0.potentialTip := by
  rw [h] at hm
  cases h0 : alookup k ac with
  | none => rw [h0] at hm; simp at hm
  | some c0 =>
    rw [h0] at hm
    simp only [Option.map_some'] at hm
    exact ⟨c0, rfl, Option.some.inj hm⟩

theorem pT_map_elim_const {ac2 ac : List (String × BlockCommit)} {k : String}
    {b : Bool}
    (hm : (alookup k ac2).map (fun x => x.potentialTip)
      = (alookup k ac).map (fun _ => b))
    {c : BlockCommit} (h : alookup k ac2 = some c) : c.potentialTip = b := by
  rw [h] at hm
  cases h0 : alookup k ac with
  | none => rw [h0] at hm; simp at hm
  | some c0 =>
    rw [h0] at hm
    simpa using hm

theorem heights_eq_of_static {a ac ac2 : List (String × BlockCommit)}
    (hs : SameStatic a ac) (hs2 : SameStatic a ac2) {k : String}
    {c c0 : BlockCommit} (h2 : alookup k ac2 = some c)
    (h0 : alookup k ac = some c0) :
    c.burnBlockHeight = c0.burnBlockHeight ∧ c.parent = c0.parent ∧
      c.txid = c0.txid := by
  obtain ⟨cb, hb, ht2, hp2, hh2⟩ := sameStatic_lookup hs2 h2
  obtain ⟨cb2, hb2, ht0, hp0, hh0⟩ := sameStatic_lookup hs h0
  rw [hb] at hb2
  cases hb2
  exact ⟨by rw [hh2, hh0], by rw [hp2, hp0], by rw [ht2, ht0]⟩

theorem NoPT_of_pT_map {a : List (String × BlockCommit)} {H : Int}
    {ac ac2 : List (String × BlockCommit)} (hs : SameStatic a ac)
    (hs2 : SameStatic a ac2)
    (hm : ∀ k, (alookup k ac2).map (fun x => x.potentialTip)
      = (alookup k ac).map (fun x => x.potentialTip))
    (h1 : NoPT H ac) : NoPT H ac2 := by
  intro k c hkc hch
  obtain ⟨c0, h0, hpt⟩ := pT_map_elim (hm k) hkc
  rw [hpt]
  refine h1 k c0 h0 ?_
  rw [← (heights_eq_of_static hs hs2 hkc h0).1]
  exact hch

theorem WinSt_of_pT_map {a : List (String × BlockCommit)} {H : Int}
    {w : String} {ac ac2 : List (String × BlockCommit)}
    (hs : SameStatic a ac) (hs2 : SameStatic a ac2)
    (hm : ∀ k, (alookup k ac2).map (fun x => x.potentialTip)
      = (alookup k ac).map (fun x => x.potentialTip))
    (h1 : WinSt H w ac) : WinSt H w ac2 := by
  constructor
  · intro k c hkc hch
    obtain ⟨c0, h0, hpt⟩ := pT_map_elim (hm k) hkc
    rw [hpt]
    refine h1.1 k c0 h0 ?_
    rw [← (heights_eq_of_static hs hs2 hkc h0).1]
    exact hch
  · intro cw p hw hp
    obtain ⟨cw0, hw0, _⟩ := pT_map_elim (hm w) hw
    have hpar := (heights_eq_of_static hs hs2 hw hw0).2.1
    obtain ⟨p0, hp0, hptp⟩ := pT_map_elim (hm cw.parent) hp
    rw [hptp]
    refine h1.2 cw0 p0 hw0 ?_
    rw [← hpar]
    exact hp0

theorem commitStep_NoPT {a : List (String × BlockCommit)} {H : Int}
    {snh : Snapshot} {pay : String → Option (String × Int)}
    {tf : Int → Option Int} {ac : List (String × BlockCommit)} {t : String}
    (hs : SameStatic a ac)
    (hbTx : ∀ k cb, alookup k a = some cb → cb.txid = k)
    (hbPar : ∀ k cb, alookup k a = some cb → ¬ cb.parent = k)
    (hcase : (¬ t = snh.winningTxid) ∨
      (∀ cb, alookup t a = some cb → ¬ cb.burnBlockHeight = H))
    (h1 : NoPT H ac) : NoPT H (commitStep snh pay tf ac t) := by
  intro k c hkc hch
  unfold commitStep at hkc
  cases hc : alookup t ac with
  | none =>
    rw [hc] at hkc
    exact h1 k c hkc hch
  | some c0 =>
    rw [hc] at hkc
    simp only [] at hkc
    obtain ⟨cb, hcb, htx0, hpar0, hh0⟩ := sameStatic_lookup hs hc
    have hc0t : c0.txid = t := by rw [htx0]; exact hbTx t cb hcb
    have hs3 : SameStatic a
        (amodify t (fun x => { x with stacksHeight := snh.stacksHeight }) ac) :=
      sameStatic_amodify t _ (fun x => rfl) hs
    by_cases hwt : c0.txid = snh.winningTxid
    · rw [if_pos hwt] at hkc
      have htw : t = snh.winningTxid := by rw [← hc0t]; exact hwt
      rcases hcase with hcase | hcase
      · exact absurd htw hcase
      · have hpt : ¬ c0.parent = t := by rw [hpar0]; exact hbPar t cb hcb
        have hchar := pwc_pT pay tf snh.stacksHeight snh.consensusHash t c0
          (amodify t (fun x => { x with stacksHeight := snh.stacksHeight }) ac)
          hpt k
        have hsR : SameStatic a (processWinningCommit pay tf snh.stacksHeight
            snh.consensusHash t c0 (amodify t
              (fun x => { x with stacksHeight := snh.stacksHeight }) ac)) :=
          pwc_static _ _ _ _ _ _ _ hs3
        by_cases htk : t = k
        · subst htk
          exfalso
          obtain ⟨cb2, hcb2, _, _, hhR⟩ := sameStatic_lookup hsR hkc
          exact hcase cb2 hcb2 (by rw [← hhR]; exact hch)
        · by_cases hpk : c0.parent = k
          · have hconst := pT_map_elim_const
              (by rw [hchar, if_neg htk, if_pos hpk]) hkc
            exact hconst
          · have hpres : (alookup k (processWinningCommit pay tf
                snh.stacksHeight snh.consensusHash t c0 (amodify t
                  (fun x => { x with stacksHeight := snh.stacksHeight })
                  ac))).map (fun x => x.potentialTip)
                = (alookup k ac).map (fun x => x.potentialTip) := by
              rw [hchar, if_neg htk, if_neg hpk,
                map_pT_amodify_pres t k
                  (fun x => { x with stacksHeight := snh.stacksHeight })
                  (fun x => rfl)]
            obtain ⟨c0k, h0k, hptk⟩ := pT_map_elim hpres hkc
            rw [hptk]
            refine h1 k c0k h0k ?_
            rw [← (heights_eq_of_static hs hsR hkc h0k).1]
            exact hch
    · rw [if_neg hwt] at hkc
      have hpres := map_pT_amodify_pres t k
        (fun x => { x with stacksHeight := snh.stacksHeight })
        (fun x => rfl) ac
      obtain ⟨c0k, h0k, hptk⟩ := pT_map_elim hpres hkc
      rw [hptk]
      refine h1 k c0k h0k ?_
      rw [← (heights_eq_of_static hs hs3 hkc h0k).1]
      exact hch

theorem pwc_estab {a : List (String × BlockCommit)} {H : Int} {w : String}
    (pay : String → Option (String × Int)) (tf : Int → Option Int)
    (sh : Int) (ch : String) (c0 : BlockCommit)
    {ac : List (String × BlockCommit)} (hs : SameStatic a ac)
    (c1 : BlockCommit) (hc : alookup w ac = some c1)
    (hpareq : c1.parent = c0.parent) (hpt : ¬ c0.parent = w)
    (hstart : NoPT H ac ∨ WinSt H w ac) :
    WinSt H w (processWinningCommit pay tf sh ch w c0 ac) := by
  have hsR : SameStatic a (processWinningCommit pay tf sh ch w c0 ac) :=
    pwc_static pay tf sh ch w c0 ac hs
  have hchar := fun k => pwc_pT pay tf sh ch w c0 ac hpt k
  obtain ⟨cb, hcb, _, hpar1, _⟩ := sameStatic_lookup hs hc
  constructor
  · intro k c hkc hch
    by_cases hwk : w = k
    · subst hwk
      have hct : c.potentialTip = true :=
        pT_map_elim_const (by rw [hchar w, if_pos rfl]) hkc
      exact ⟨fun _ => rfl, fun _ => hct⟩
    · by_cases hpk : c0.parent = k
      · have hcf : c.potentialTip = false :=
          pT_map_elim_const (by rw [hchar k, if_neg hwk, if_pos hpk]) hkc
        rw [hcf]
        exact ⟨fun h => absurd h Bool.false_ne_true,
          fun h => absurd h (fun he => hwk he.symm)⟩
      · have hpres : (alookup k (processWinningCommit pay tf sh ch w c0
            ac)).map (fun x => x.potentialTip)
            = (alookup k ac).map (fun x => x.potentialTip) := by
          rw [hchar k, if_neg hwk, if_neg hpk]
        obtain ⟨c0k, h0k, hptk⟩ := pT_map_elim hpres hkc
        have hhe := (heights_eq_of_static hs hsR hkc h0k).1
        rcases hstart with h1 | h1
        · rw [hptk, h1 k c0k h0k (by rw [← hhe]; exact hch)]
          exact ⟨fun h => absurd h Bool.false_ne_true,
            fun h => absurd h (fun he => hwk he.symm)⟩
        · rw [hptk]
          exact ⟨fun h => (h1.1 k c0k h0k (by rw [← hhe]; exact hch)).1 h,
            fun h => absurd h (fun he => hwk he.symm)⟩
  · intro cw p hwc hpc
    obtain ⟨cb2, hcb2, _, hparc, _⟩ := sameStatic_lookup hsR hwc
    have hcb2e : cb2 = cb := by
      rw [hcb] at hcb2
      exact (Option.some.inj hcb2).symm
    have hcwp : cw.parent = c0.parent := by
      rw [hparc, hcb2e, ← hpar1, hpareq]
    rw [hcwp] at hpc
    exact pT_map_elim_const
      (by rw [hchar c0.parent, if_neg (fun he => hpt he.symm), if_pos rfl]) hpc

theorem commitStep_w_estab {a : List (String × BlockCommit)} {H : Int}
    {w : String} (snh : Snapshot) (pay : String → Option (String × Int))
    (tf : Int → Option Int) {ac : List (String × BlockCommit)}
    (hs : SameStatic a ac)
    (hbTx : ∀ k cb, alookup k a = some cb → cb.txid = k)
    (hbPar : ∀ k cb, alookup k a = some cb → ¬ cb.parent = k)
    (hbw : (alookup w a).isSome = true)
    (hww : snh.winningTxid = w)
    (hstart : NoPT H ac ∨ WinSt H w ac) :
    WinSt H w (commitStep snh pay tf ac w) := by
  cases hcbo : alookup w a with
  | none => rw [hcbo] at hbw; simp at hbw
  | some cb =>
    obtain ⟨c0, hc, htx, hpar, _⟩ := sameStatic_lookup_rev hs hcbo
    have hpt : ¬ c0.parent = w := by rw [hpar]; exact hbPar w cb hcbo
    unfold commitStep
    rw [hc]
    simp only []
    rw [if_pos (by rw [htx, hbTx w cb hcbo, hww])]
    have hs3 : SameStatic a (amodify w
        (fun x => { x with stacksHeight := snh.stacksHeight }) ac) :=
      sameStatic_amodify w _ (fun x => rfl) hs
    have hpres3 := fun k => map_pT_amodify_pres w k
      (fun x => { x with stacksHeight := snh.stacksHeight }) (fun x => rfl) ac
    refine pwc_estab pay tf snh.stacksHeight snh.consensusHash c0 hs3
      { c0 with stacksHeight := snh.stacksHeight } ?_ rfl hpt ?_
    · rw [alookup_amodify, if_pos rfl, hc]
      rfl
    · rcases hstart with h1 | h1
      · exact Or.inl (NoPT_of_pT_map hs hs3 hpres3 h1)
      · exact Or.inr (WinSt_of_pT_map hs hs3 hpres3 h1)

theorem foldH_preserve {a : List (String × BlockCommit)} {H : Int}
    {w : String} (snh : Snapshot) (pay : String → Option (String × Int))
    (tf : Int → Option Int)
    (hbTx : ∀ k cb, alookup k a = some cb → cb.txid = k)
    (hbPar : ∀ k cb, alookup k a = some cb → ¬ cb.parent = k)
    (hbw : (alookup w a).isSome = true)
    (hww : snh.winningTxid = w) :
    ∀ (ts : List String) (ac : List (String × BlockCommit)),
      SameStatic a ac → WinSt H w ac →
      SameStatic a (ts.foldl (commitStep snh pay tf) ac) ∧
        WinSt H w (ts.foldl (commitStep snh pay tf) ac) := by
  intro ts
  induction ts with
  | nil => intro ac h1 h2; exact ⟨h1, h2⟩
  | cons t ts ih =>
    intro ac h1 h2
    rw [List.foldl_cons]
    refine ih _ (commitStep_static snh pay tf ac t h1) ?_
    by_cases htw : t = w
    · subst htw
      exact commitStep_w_estab snh pay tf h1 hbTx hbPar hbw hww (Or.inr h2)
    · refine WinSt_of_pT_map h1 (commitStep_static snh pay tf ac t h1) ?_ h2
      intro k
      refine commitStep_pT_nonw snh pay tf ac t ?_ k
      intro c0 hc0 hcw
      obtain ⟨cb, hcb, htx, _, _⟩ := sameStatic_lookup h1 hc0
      exact htw (by rw [← hbTx t cb hcb, ← htx, hcw]; exact hww)

theorem foldH_estab {a : List (String × BlockCommit)} {H : Int}
    {w : String} (snh : Snapshot) (pay : String → Option (String × Int))
    (tf : Int → Option Int)
    (hbTx : ∀ k cb, alookup k a = some cb → cb.txid = k)
    (hbPar : ∀ k cb, alookup k a = some cb → ¬ cb.parent = k)
    (hbw : (alookup w a).isSome = true)
    (hww : snh.winningTxid = w) :
    ∀ (ts : List String) (ac : List (String × BlockCommit)),
      SameStatic a ac → NoPT H ac → w ∈ ts →
      SameStatic a (ts.foldl (commitStep snh pay tf) ac) ∧
        WinSt H w (ts.foldl (commitStep snh pay tf) ac) := by
  intro ts
  induction ts with
  | nil => intro ac _ _ hmem; exact absurd hmem (List.not_mem_nil w)
  | cons t ts ih =>
    intro ac h1 h2 hmem
    rw [List.foldl_cons]
    by_cases htw : t = w
    · have hW : WinSt H w (commitStep snh pay tf ac w) :=
        commitStep_w_estab snh pay tf h1 hbTx hbPar hbw hww (Or.inl h2)
      rw [htw]
      exact foldH_preserve snh pay tf hbTx hbPar hbw hww ts _
        (commitStep_static snh pay tf ac w h1) hW
    · have hmem2 : w ∈ ts := by
        rcases List.mem_cons.mp hmem with h | h
        · exact absurd h.symm htw
        · exact h
      refine ih _ (commitStep_static snh pay tf ac t h1) ?_ hmem2
      refine NoPT_of_pT_map h1 (commitStep_static snh pay tf ac t h1) ?_ h2
      intro k
      refine commitStep_pT_nonw snh pay tf ac t ?_ k
      intro c0 hc0 hcw
      obtain ⟨cb, hcb, htx, _, _⟩ := sameStatic_lookup h1 hc0
      exact htw (by rw [← hbTx t cb hcb, ← htx, hcw]; exact hww)

theorem alookup_appendAt {K V : Type} [DecidableEq K] (k k2 : K) (v : V)
    (m : List (K × List V)) :
    alookup k2 (appendAt k v m)
      = if k = k2 then some ((alookup k2 m).getD [] ++ [v])
        else alookup k2 m := by
  unfold appendAt
  rw [alookup_ainsert]
  split_ifs with h
  · rw [h]
  · rfl

theorem mem_of_alookup {K V : Type} [DecidableEq K] {l : List (K × V)}
    {k : K} {c : V} (h : alookup k l = some c) : (k, c) ∈ l := by
  induction l with
  | nil => simp [alookup] at h
  | cons e l ih =>
    simp only [alookup] at h
    split_ifs at h with he
    · subst he
      rw [← Option.some.inj h]
      exact List.mem_cons_self e l
    · exact List.mem_cons_of_mem e (ih h)

theorem alookup_of_mem_nodup {K V : Type} [DecidableEq K]
    {l : List (K × V)} (hnd : (l.map Prod.fst).Nodup) {k : K} {c : V}
    (h : (k, c) ∈ l) : alookup k l = some c := by
  induction l with
  | nil => cases h
  | cons e l ih =>
    simp only [List.map_cons, List.nodup_cons] at hnd
    rcases List.mem_cons.mp h with h1 | h1
    · rw [← h1]
      simp [alookup]
    · have hk : ¬ e.1 = k := by
        intro he
        apply hnd.1
        rw [he]
        exact List.mem_map_of_mem Prod.fst h1
      simp only [alookup, if_neg hk]
      exact ih hnd.2 h1

theorem gfold_fst :
    ∀ (l : List (String × BlockCommit))
      (acc : List (Int × List String) × List (String × Int)),
      (l.foldl gstep acc).1
        = l.foldl (fun b e => appendAt e.2.burnBlockHeight e.1 b) acc.1 := by
  intro l
  induction l with
  | nil => intro acc; rfl
  | cons e l ih =>
    intro acc
    rw [List.foldl_cons, List.foldl_cons, ih]
    rfl

theorem bucket_mem_mono :
    ∀ (l : List (String × BlockCommit)) (b : List (Int × List String))
      (h : Int) (ts : List String) (t : String),
      alookup h b = some ts → t ∈ ts →
      ∃ ts2, alookup h (l.foldl
          (fun b e => appendAt e.2.burnBlockHeight e.1 b) b) = some ts2 ∧
        t ∈ ts2 := by
  intro l
  induction l with
  | nil => intro b h ts t hb ht; exact ⟨ts, hb, ht⟩
  | cons e l ih =>
    intro b h ts t hb ht
    rw [List.foldl_cons]
    by_cases hkh : e.2.burnBlockHeight = h
    · refine ih _ h ((alookup h b).getD [] ++ [e.1]) t ?_ ?_
      · rw [alookup_appendAt, if_pos hkh]
      · rw [hb]
        exact List.mem_append_left _ ht
    · refine ih _ h ts t ?_ ht
      rw [alookup_appendAt, if_neg hkh]
      exact hb

theorem bucket_sound_fold (a : List (String × BlockCommit)) :
    ∀ (l : List (String × BlockCommit)) (b : List (Int × List String)),
      (∀ e ∈ l, e ∈ a) →
      (∀ h ts, alookup h b = some ts → ∀ t ∈ ts,
        ∃ c, (t, c) ∈ a ∧ c.burnBlockHeight = h) →
      ∀ h ts, alookup h (l.foldl
          (fun b e => appendAt e.2.burnBlockHeight e.1 b) b) = some ts →
        ∀ t ∈ ts, ∃ c, (t, c) ∈ a ∧ c.burnBlockHeight = h := by
  intro l
  induction l with
  | nil => intro b _ hb; exact hb
  | cons e l ih =>
    intro b hsub hb
    rw [List.foldl_cons]
    refine ih _ (fun e2 he2 => hsub e2 (List.mem_cons_of_mem e he2)) ?_
    intro h ts hts t ht
    rw [alookup_appendAt] at hts
    split_ifs at hts with hkh
    · rw [← Option.some.inj hts] at ht
      rcases List.mem_append.mp ht with h1 | h1
      · cases hob : alookup h b with
        | none => rw [hob] at h1; simp at h1
        | some ts0 =>
          rw [hob] at h1
          exact hb h ts0 hob t h1
      · rw [List.mem_singleton.mp h1]
        exact ⟨e.2, hsub e (List.mem_cons_self e l), hkh⟩
    · exact hb h ts hts t ht

theorem bucket_complete_fold :
    ∀ (l : List (String × BlockCommit)) (b : List (Int × List String))
      (k : String) (c : BlockCommit), (k, c) ∈ l →
      ∃ ts2, alookup c.burnBlockHeight (l.foldl
          (fun b e => appendAt e.2.burnBlockHeight e.1 b) b) = some ts2 ∧
        k ∈ ts2 := by
  intro l
  induction l with
  | nil => intro b k c h; cases h
  | cons e l ih =>
    intro b k c h
    rw [List.foldl_cons]
    rcases List.mem_cons.mp h with h1 | h1
    · subst h1
      refine bucket_mem_mono l _ c.burnBlockHeight
        ((alookup c.burnBlockHeight b).getD [] ++ [k]) k ?_ ?_
      · show alookup c.burnBlockHeight
          (appendAt c.burnBlockHeight k b) = _
        rw [alookup_appendAt, if_pos rfl]
      · exact List.mem_append_right _ (List.mem_singleton.mpr rfl)
    · exact ih _ k c h1

theorem fold_NoPT_nonH {a : List (String × BlockCommit)} {H : Int}
    (snh : Snapshot) (pay : String → Option (String × Int))
    (tf : Int → Option Int)
    (hbTx : ∀ k cb, alookup k a = some cb → cb.txid = k)
    (hbPar : ∀ k cb, alookup k a = some cb → ¬ cb.parent = k) :
    ∀ (ts : List String) (ac : List (String × BlockCommit)),
      SameStatic a ac →
      (∀ t ∈ ts, ∀ cb, alookup t a = some cb →
        ¬ cb.burnBlockHeight = H) →
      NoPT H ac →
      SameStatic a (ts.foldl (commitStep snh pay tf) ac) ∧
        NoPT H (ts.foldl (commitStep snh pay tf) ac) := by
  intro ts
  induction ts with
  | nil => intro ac h1 _ h2; exact ⟨h1, h2⟩
  | cons t ts ih =>
    intro ac h1 hts h2
    rw [List.foldl_cons]
    refine ih _ (commitStep_static snh pay tf ac t h1)
      (fun t2 ht2 => hts t2 (List.mem_cons_of_mem t ht2)) ?_
    exact commitStep_NoPT h1 hbTx hbPar
      (Or.inr (hts t (List.mem_cons_self t ts))) h2

theorem processOneHeight_NoPT {a : List (String × BlockCommit)} {H : Int}
    (sn : Int → Snapshot) (pay : String → Option (String × Int))
    (tf : Int → Option Int) (cbb : List (Int × List String)) (h : Int)
    (hbTx : ∀ k cb, alookup k a = some cb → cb.txid = k)
    (hbPar : ∀ k cb, alookup k a = some cb → ¬ cb.parent = k)
    (hsound : ∀ hh ts, alookup hh cbb = some ts → ∀ t ∈ ts, ∀ cb,
      alookup t a = some cb → cb.burnBlockHeight = hh)
    (hne : ¬ h = H) {ac : List (String × BlockCommit)}
    (h1 : SameStatic a ac) (h2 : NoPT H ac) :
    SameStatic a (processOneHeight sn pay tf cbb h ac) ∧
      NoPT H (processOneHeight sn pay tf cbb h ac) := by
  unfold processOneHeight
  cases hcb : alookup h cbb with
  | none => exact ⟨h1, h2⟩
  | some ts =>
    have hts : ∀ t ∈ ts, ∀ cb, alookup t a = some cb →
        ¬ cb.burnBlockHeight = H := by
      intro t ht cb hcb2 hH
      exact hne ((hsound h ts hcb t ht cb hcb2).symm.trans hH)
    clear hcb
    show SameStatic a (ts.foldl (commitStep (sn h) pay tf) ac) ∧
      NoPT H (ts.foldl (commitStep (sn h) pay tf) ac)
    exact fold_NoPT_nonH (sn h) pay tf hbTx hbPar ts ac h1 hts h2

theorem foldHeights_low {a : List (String × BlockCommit)} {H : Int}
    (sn : Int → Snapshot) (pay : String → Option (String × Int))
    (tf : Int → Option Int) (cbb : List (Int × List String))
    (hbTx : ∀ k cb, alookup k a = some cb → cb.txid = k)
    (hbPar : ∀ k cb, alookup k a = some cb → ¬ cb.parent = k)
    (hsound : ∀ hh ts, alookup hh cbb = some ts → ∀ t ∈ ts, ∀ cb,
      alookup t a = some cb → cb.burnBlockHeight = hh) :
    ∀ (ls : List Int), (∀ x ∈ ls, ¬ x = H) →
      ∀ ac, SameStatic a ac → NoPT H ac →
      SameStatic a (ls.foldl
        (fun ac h => processOneHeight sn pay tf cbb h ac) ac) ∧
      NoPT H (ls.foldl
        (fun ac h => processOneHeight sn pay tf cbb h ac) ac) := by
  intro ls
  induction ls with
  | nil => intro _ ac h1 h2; exact ⟨h1, h2⟩
  | cons x ls ih =>
    intro hls ac h1 h2
    rw [List.foldl_cons]
    obtain ⟨h1b, h2b⟩ := processOneHeight_NoPT sn pay tf cbb x hbTx hbPar
      hsound (hls x (List.mem_cons_self x ls)) h1 h2
    exact ih (fun x2 hx2 => hls x2 (List.mem_cons_of_mem x hx2)) _ h1b h2b

theorem processOneHeight_estab {a : List (String × BlockCommit)} {H : Int}
    {w : String} (sn : Int → Snapshot)
    (pay : String → Option (String × Int)) (tf : Int → Option Int)
    (cbb : List (Int × List String))
    (hbTx : ∀ k cb, alookup k a = some cb → cb.txid = k)
    (hbPar : ∀ k cb, alookup k a = some cb → ¬ cb.parent = k)
    (hbw : (alookup w a).isSome = true)
    (hww : (sn H).winningTxid = w)
    {ts : List String} (hcb : alookup H cbb = some ts) (hmem : w ∈ ts)
    {ac : List (String × BlockCommit)}
    (h1 : SameStatic a ac) (h2 : NoPT H ac) :
    SameStatic a (processOneHeight sn pay tf cbb H ac) ∧
      WinSt H w (processOneHeight sn pay tf cbb H ac) := by
  unfold processOneHeight
  rw [hcb]
  exact foldH_estab (sn H) pay tf hbTx hbPar hbw hww ts ac h1 h2 hmem

theorem loader_txid (rows : List CommitRow)
    (hnd : (rows.map CommitRow.txid).Nodup)
    (hne : ∀ r ∈ rows, r.txid ≠ "")
    (hsort : List.Pairwise
      (fun a c => a.burnBlockHeight ≤ c.burnBlockHeight) rows) :
    ∀ k cb, alookup k (loaderGraph rows) = some cb → cb.txid = k := by
  intro k cb h
  obtain ⟨i, hi, _, hget⟩ := alookup_idx k (loaderGraph rows) cb h
  have hx := (loaderGraph_inv rows hnd hne hsort).keyTx ⟨i, hi⟩
  rw [hget] at hx
  exact hx

theorem loader_parent_ne (rows : List CommitRow)
    (hnd : (rows.map CommitRow.txid).Nodup)
    (hne : ∀ r ∈ rows, r.txid ≠ "")
    (hsort : List.Pairwise
      (fun a c => a.burnBlockHeight ≤ c.burnBlockHeight) rows) :
    ∀ k cb, alookup k (loaderGraph rows) = some cb → ¬ cb.parent = k := by
  intro k cb h hpar
  obtain ⟨i, hi, _, hget⟩ := alookup_idx k (loaderGraph rows) cb h
  exact absurd ((loaderGraph_inv rows hnd hne hsort).wf ⟨i, hi⟩ ⟨i, hi⟩
    (by rw [hget]; exact hpar.symm)) (lt_irrefl i)

theorem loader_NoPT (rows : List CommitRow)
    (hnd : (rows.map CommitRow.txid).Nodup)
    (hne : ∀ r ∈ rows, r.txid ≠ "")
    (hsort : List.Pairwise
      (fun a c => a.burnBlockHeight ≤ c.burnBlockHeight) rows)
    (H : Int) : NoPT H (loaderGraph rows) := by
  intro k c h _
  obtain ⟨i, hi, _, hget⟩ := alookup_idx k (loaderGraph rows) c h
  have hx := ((loaderGraph_inv rows hnd hne hsort).flagsFalse ⟨i, hi⟩).1
  rw [hget] at hx
  exact hx

theorem loader_bucket_eq (rows : List CommitRow) :
    (fetchCommitDataRows rows).CommitsByBlock
      = (loaderGraph rows).foldl
        (fun b e => appendAt e.2.burnBlockHeight e.1 b) [] :=
  gfold_fst (loaderGraph rows) ([], [])

theorem loader_bucket_sound (rows : List CommitRow)
    (hnd : (rows.map CommitRow.txid).Nodup)
    (hne : ∀ r ∈ rows, r.txid ≠ "")
    (hsort : List.Pairwise
      (fun a c => a.burnBlockHeight ≤ c.burnBlockHeight) rows) :
    ∀ hh ts, alookup hh (fetchCommitDataRows rows).CommitsByBlock = some ts →
      ∀ t ∈ ts, ∀ cb, alookup t (loaderGraph rows) = some cb →
        cb.burnBlockHeight = hh := by
  intro hh ts hcb t ht cb hcbk
  rw [loader_bucket_eq] at hcb
  obtain ⟨c, hmem, hh2⟩ := bucket_sound_fold (loaderGraph rows)
    (loaderGraph rows) [] (fun e he => he)
    (by intro h ts0 h0; simp [alookup] at h0) hh ts hcb t ht
  have hl := alookup_of_mem_nodup
    (loaderGraph_inv rows hnd hne hsort).nodupKeys hmem
  have hcc : c = cb := Option.some.inj (hl.symm.trans hcbk)
  rw [← hcc]
  exact hh2

theorem loader_bucket_complete (rows : List CommitRow) (k : String)
    (c : BlockCommit) (h : alookup k (loaderGraph rows) = some c) :
    ∃ ts, alookup c.burnBlockHeight
        (fetchCommitDataRows rows).CommitsByBlock = some ts ∧ k ∈ ts := by
  obtain ⟨ts2, hts2, hkmem⟩ := bucket_complete_fold (loaderGraph rows) [] k c
    (mem_of_alookup h)
  exact ⟨ts2, by rw [loader_bucket_eq]; exact hts2, hkmem⟩

/-- C5: for every ascending row input with pairwise-distinct nonempty bid ids,
every processed window `lower ≤ H`, and every height `H` whose declared winner
id matches a bid at height `H` in the loaded graph, immediately after the
per-height pass has processed height `H` (the fold of `processOneHeight` over
`lower..H`) there is a commit for the winner id, it has `potentialTip = true`,
a bid at height `H` has `potentialTip = true` exactly when it is the winner
(so exactly one does), and if the winner's resolved parent is present in the
graph then that parent's `potentialTip` is false. -/
theorem C5_per_height_single_potential_tip
    (rows : List CommitRow) (sn : Int → Snapshot)
    (pay : String → Option (String × Int)) (tf : Int → Option Int)
    (lower H : Int)
    (hnd : (rows.map CommitRow.txid).Nodup)
    (hne : ∀ r ∈ rows, r.txid ≠ "")
    (hsort : List.Pairwise
      (fun a c => a.burnBlockHeight ≤ c.burnBlockHeight) rows)
    (hlow : lower ≤ H)
    (hwin : (alookup (sn H).winningTxid (loaderGraph rows)).map
      (fun c => c.burnBlockHeight) = some H)
    (acH : List (String × BlockCommit))
    (hacH : acH = (heightRange lower H).foldl
      (fun ac h => processOneHeight sn pay tf
        (fetchCommitDataRows rows).CommitsByBlock h ac) (loaderGraph rows)) :
    ∃ cw, alookup (sn H).winningTxid acH = some cw ∧
      cw.potentialTip = true ∧ cw.burnBlockHeight = H ∧
      (∀ k c, alookup k acH = some c → c.burnBlockHeight = H →
        (c.potentialTip = true ↔ k = (sn H).winningTxid)) ∧
      (∀ p, alookup cw.parent acH = some p → p.potentialTip = false) := by
  obtain ⟨cw0, hcw0, hcw0H⟩ := Option.map_eq_some'.mp hwin
  have hbTx := loader_txid rows hnd hne hsort
  have hbPar := loader_parent_ne rows hnd hne hsort
  have hNoPT : NoPT H (loaderGraph rows) := loader_NoPT rows hnd hne hsort H
  have hsound := loader_bucket_sound rows hnd hne hsort
  obtain ⟨ts, hts, hwmem⟩ :=
    loader_bucket_complete rows ((sn H).winningTxid) cw0 hcw0
  rw [hcw0H] at hts
  have hbw : (alookup (sn H).winningTxid (loaderGraph rows)).isSome = true := by
    rw [hcw0]
    rfl
  rw [heightRange_snoc lower H hlow, List.foldl_append] at hacH
  obtain ⟨h1p, h2p⟩ := foldHeights_low sn pay tf
    (fetchCommitDataRows rows).CommitsByBlock hbTx hbPar hsound
    (heightRange lower (H - 1))
    (fun x hx => by
      have hm := (mem_heightRange lower (H - 1) x).mp hx
      omega)
    (loaderGraph rows) (sameStatic_refl _) hNoPT
  simp only [List.foldl_cons, List.foldl_nil] at hacH
  obtain ⟨h1f, h2f⟩ := processOneHeight_estab sn pay tf
    (fetchCommitDataRows rows).CommitsByBlock hbTx hbPar hbw rfl hts hwmem
    h1p h2p
  rw [← hacH] at h1f h2f
  obtain ⟨cw2, hcw2, _, _, hcw2h⟩ := sameStatic_lookup_rev h1f hcw0
  refine ⟨cw2, hcw2, ?_, ?_, h2f.1, fun p hp => h2f.2 cw2 p hcw2 hp⟩
  · exact (h2f.1 (sn H).winningTxid cw2 hcw2
      (by rw [hcw2h]; exact hcw0H)).mpr rfl
  · rw [hcw2h]
    exact hcw0H

/-- Snapshot oracle for the C5 witness scenario: bid a wins at height 1, bid
b at height 2. -/
def snC5 : Int → Snapshot :=
  fun h => if h = 2 then ⟨"b", 2, "ch2"⟩ else ⟨"a", 1, "ch1"⟩

/-- Two-bid chain for the C5 witness scenario: b at height 2 is the child of
a at height 1. -/
def wrowsC5 : List CommitRow :=
  [{ burnHeaderHash := "bh1", txid := "a", sender := "m1", sortitionId := "s1"
     vtxindex := 0, burnBlockHeight := 1, spend := 100, parentBlockPtr := 0
     parentVtxindex := 0, memo := "" },
   { burnHeaderHash := "bh2", txid := "b", sender := "m2", sortitionId := "s2"
     vtxindex := 0, burnBlockHeight := 2, spend := 200, parentBlockPtr := 1
     parentVtxindex := 0, memo := "" }]

theorem C5_per_height_single_potential_tip_witness :
    ∃ cw, alookup (snC5 2).winningTxid
        ((heightRange 1 2).foldl
          (fun ac h => processOneHeight snC5 (fun _ => none) (fun _ => none)
            (fetchCommitDataRows wrowsC5).CommitsByBlock h ac)
          (loaderGraph wrowsC5)) = some cw ∧
      cw.potentialTip = true ∧ cw.burnBlockHeight = 2 ∧
      (∀ k c, alookup k ((heightRange 1 2).foldl
          (fun ac h => processOneHeight snC5 (fun _ => none) (fun _ => none)
            (fetchCommitDataRows wrowsC5).CommitsByBlock h ac)
          (loaderGraph wrowsC5)) = some c → c.burnBlockHeight = 2 →
        (c.potentialTip = true ↔ k = (snC5 2).winningTxid)) ∧
      (∀ p, alookup cw.parent ((heightRange 1 2).foldl
          (fun ac h => processOneHeight snC5 (fun _ => none) (fun _ => none)
            (fetchCommitDataRows wrowsC5).CommitsByBlock h ac)
          (loaderGraph wrowsC5)) = some p → p.potentialTip = false) :=
  C5_per_height_single_potential_tip wrowsC5 snC5 (fun _ => none)
    (fun _ => none) 1 2 (by decide) (by decide) (by decide) (by decide)
    (by decide) _ rfl
